import Mathlib

/-!
Verification development for the manga panel segmentation service
(`src/lib/panel_segmentation.py` and `netlify/src/lib/panel_segmentation.py`).

The Python code is shallowly embedded: the pure helper functions become Lean
functions on `Int` / `Nat` / `Rat`, the mutating list algorithms become
explicit folds with the same snapshot / erase-first semantics, and the
pipeline becomes a function of the outputs of its external collaborators
(decoded image, OpenCV contours, Hough line segments), which the original
code obtains from PIL / OpenCV / scikit-image.  Float thresholds such as
`0.3`, `0.05`, `0.02` are modelled as exact rationals, and the
`arctan`-based angle returned by `protractor` is modelled over the reals.
-/

namespace PanelSeg

/-- Insert `a` into `l`, placing it after every element `b` with `le b a = true`.
Folding this over a list reproduces Python's stable `list.sort` (a later
element is inserted after earlier elements with an equal key). -/
def insertAfter (le : α → α → Bool) (a : α) : List α → List α
  | [] => [a]
  | b :: bs => if le b a then b :: insertAfter le a bs else a :: b :: bs

/-- Stable insertion sort: the model of Python's `list.sort` / `sorted`. -/
def stableSort (le : α → α → Bool) (l : List α) : List α :=
  l.foldl (fun acc a => insertAfter le a acc) []

theorem mem_insertAfter (le : α → α → Bool) (a x : α) (l : List α) :
    x ∈ insertAfter le a l ↔ x = a ∨ x ∈ l := by
  induction l with
  | nil => simp [insertAfter]
  | cons b bs ih =>
    by_cases h : le b a = true
    · simp only [insertAfter, if_pos h, List.mem_cons, ih]
      tauto
    · simp only [insertAfter, if_neg h, List.mem_cons]

theorem pairwise_insertAfter {le : α → α → Bool}
    (htot : ∀ a b, le a b = true ∨ le b a = true)
    (htrans : ∀ a b c, le a b = true → le b c = true → le a c = true)
    (a : α) {l : List α} (hl : l.Pairwise (fun x y => le x y = true)) :
    (insertAfter le a l).Pairwise (fun x y => le x y = true) := by
  induction l with
  | nil => simp [insertAfter]
  | cons b bs ih =>
    rcases List.pairwise_cons.mp hl with ⟨hb, hbs⟩
    by_cases h : le b a = true
    · rw [insertAfter, if_pos h]
      refine List.pairwise_cons.mpr ⟨?_, ih hbs⟩
      intro y hy
      rcases (mem_insertAfter le a y bs).mp hy with rfl | hy'
      · exact h
      · exact hb y hy'
    · rw [insertAfter, if_neg h]
      have hab : le a b = true := (htot a b).resolve_right (by simpa using h)
      refine List.pairwise_cons.mpr ⟨?_, hl⟩
      intro y hy
      rcases List.mem_cons.mp hy with rfl | hy'
      · exact hab
      · exact htrans a b y hab (hb y hy')

theorem mem_stableSort (le : α → α → Bool) (l : List α) (x : α) :
    x ∈ stableSort le l ↔ x ∈ l := by
  suffices h : ∀ acc : List α,
      x ∈ l.foldl (fun acc a => insertAfter le a acc) acc ↔ x ∈ acc ∨ x ∈ l by
    simpa using h []
  induction l with
  | nil => intro acc; simp
  | cons b bs ih =>
    intro acc
    simp only [List.foldl_cons, ih, mem_insertAfter, List.mem_cons]
    tauto

theorem pairwise_stableSort {le : α → α → Bool}
    (htot : ∀ a b, le a b = true ∨ le b a = true)
    (htrans : ∀ a b c, le a b = true → le b c = true → le a c = true)
    (l : List α) :
    (stableSort le l).Pairwise (fun x y => le x y = true) := by
  suffices h : ∀ acc : List α, acc.Pairwise (fun x y => le x y = true) →
      (l.foldl (fun acc a => insertAfter le a acc) acc).Pairwise
        (fun x y => le x y = true) by
    exact h [] List.Pairwise.nil
  induction l with
  | nil => intro acc hacc; simpa using hacc
  | cons b bs ih =>
    intro acc hacc
    exact ih _ (pairwise_insertAfter htot htrans b hacc)

/-!
## Contour overlap resolution (netlify variant, `detect_panels_contour_based`,
lines 229-252)

Candidate boxes `(x, y, w, h)` are sorted by area `w*h` descending
(`panel_boxes.sort(key=..., reverse=True)`, stable) and greedily kept unless
the rectangle-intersection area with some already kept box exceeds 30% of the
candidate's own area.  The float comparison `overlap_area > current_area * 0.3`
is modelled exactly over the integers as `10 * overlap > 3 * current`.
-/

structure Box where
  x : ℤ
  y : ℤ
  w : ℤ
  h : ℤ
  deriving DecidableEq, Repr

def boxArea (b : Box) : ℤ := b.w * b.h

/-- Rectangle intersection area, exactly as computed in the source:
`max(0, min(x+w, ex+ew) - max(x, ex)) * max(0, min(y+h, ey+eh) - max(y, ey))`. -/
def interArea (a b : Box) : ℤ :=
  max 0 (min (a.x + a.w) (b.x + b.w) - max a.x b.x) *
    max 0 (min (a.y + a.h) (b.y + b.h) - max a.y b.y)

theorem interArea_comm (a b : Box) : interArea a b = interArea b a := by
  unfold interArea
  rw [min_comm (a.x + a.w), max_comm a.x, min_comm (a.y + a.h), max_comm a.y]

/-- Sort key for the final pass: area descending (`reverse=True`, stable). -/
def areaDescLe (a b : Box) : Bool := decide (boxArea b ≤ boxArea a)

/-- A candidate is kept exactly when its intersection with every already kept
box is at most 30% of its own area. -/
def keepBox (kept : List Box) (b : Box) : Bool :=
  kept.all fun e => decide (10 * interArea b e ≤ 3 * boxArea b)

def greedyKeep : List Box → List Box → List Box
  | acc, [] => acc
  | acc, b :: rest =>
    if keepBox acc b then greedyKeep (acc ++ [b]) rest else greedyKeep acc rest

/-- The final overlap-resolution pass of `detect_panels_contour_based`. -/
def resolve_overlaps (boxes : List Box) : List Box :=
  greedyKeep [] (stableSort areaDescLe boxes)

/-- Two boxes overlap by at most 30% of the smaller one's area. -/
def overlapOK (a b : Box) : Prop :=
  10 * interArea a b ≤ 3 * min (boxArea a) (boxArea b)

theorem greedyKeep_pairwise (pending : List Box) :
    ∀ acc : List Box, acc.Pairwise overlapOK →
      (∀ a ∈ acc, ∀ b ∈ pending, boxArea b ≤ boxArea a) →
      pending.Pairwise (fun a b => boxArea b ≤ boxArea a) →
      (greedyKeep acc pending).Pairwise overlapOK := by
  induction pending with
  | nil => intro acc hacc _ _; simpa [greedyKeep] using hacc
  | cons b rest ih =>
    intro acc hacc hdom hpend
    rcases List.pairwise_cons.mp hpend with ⟨hb, hrest⟩
    by_cases hk : keepBox acc b = true
    · rw [greedyKeep, if_pos hk]
      refine ih (acc ++ [b]) ?_ ?_ hrest
      · rw [List.pairwise_append]
        refine ⟨hacc, by simp, ?_⟩
        intro a ha c hc
        rcases List.mem_singleton.mp hc with rfl
        have h1 : 10 * interArea c a ≤ 3 * boxArea c := by
          have := List.all_eq_true.mp hk a ha
          simpa using this
        have h2 : boxArea c ≤ boxArea a := hdom a ha c (List.mem_cons_self c rest)
        unfold overlapOK
        rw [interArea_comm, min_eq_right h2]
        exact h1
      · intro a ha c hc
        rcases List.mem_append.mp ha with ha' | ha'
        · exact hdom a ha' c (List.mem_cons_of_mem b hc)
        · rcases List.mem_singleton.mp ha' with rfl
          exact hb c hc
    · rw [greedyKeep, if_neg hk]
      refine ih acc hacc ?_ hrest
      intro a ha c hc
      exact hdom a ha c (List.mem_cons_of_mem b hc)

/-- C1: the final dedup pass of the contour detector sorts candidates by area
descending and greedily keeps a candidate exactly when its intersection with
every kept box is at most 30% of its own area; consequently no two returned
boxes overlap by more than 30% of the smaller box's area, and of two
candidates where the smaller overlaps the larger by 40% of the smaller's
area, only the larger is returned. -/
theorem contour_dedup_overlap_bound :
    (∀ boxes : List Box, (resolve_overlaps boxes).Pairwise overlapOK) ∧
    (∀ b1 b2 : Box, 0 < boxArea b2 → boxArea b2 < boxArea b1 →
      10 * interArea b2 b1 = 4 * boxArea b2 →
      resolve_overlaps [b1, b2] = [b1]) := by
  constructor
  · intro boxes
    apply greedyKeep_pairwise (stableSort areaDescLe boxes) [] List.Pairwise.nil
      (by intro a ha; simp at ha)
    have h := @pairwise_stableSort Box areaDescLe
      (fun a b => by
        unfold areaDescLe
        rcases le_total (boxArea b) (boxArea a) with h | h
        · left; simpa using h
        · right; simpa using h)
      (fun a b c hab hbc => by
        simp only [areaDescLe, decide_eq_true_eq] at hab hbc ⊢
        exact le_trans hbc hab)
      boxes
    exact h.imp (fun hxy => by simpa [areaDescLe] using hxy)
  · intro b1 b2 hpos harea hover
    have hsort : stableSort areaDescLe [b1, b2] = [b1, b2] := by
      have hle : areaDescLe b1 b2 = true := by
        simp [areaDescLe, le_of_lt harea]
      simp [stableSort, insertAfter, hle]
    have hkeep1 : keepBox [] b1 = true := by simp [keepBox]
    have hkeep2 : keepBox [b1] b2 = false := by
      simp only [keepBox, List.all_cons, List.all_nil, Bool.and_true,
        decide_eq_true_eq]
      rw [hover]
      simp only [decide_eq_false_iff_not, not_le]
      linarith
    rw [resolve_overlaps, hsort, greedyKeep, if_pos hkeep1]
    simp only [List.nil_append]
    rw [greedyKeep, if_neg (by simp [hkeep2])]
    rfl

/-- Witness for `contour_dedup_overlap_bound` at a concrete pair of boxes:
a 10 by 10 box overlapping a 20 by 20 box by 40 of its 100 square units. -/
theorem contour_dedup_overlap_bound_witness :
    (resolve_overlaps [Box.mk 0 0 20 20, Box.mk 16 0 10 10]).Pairwise overlapOK ∧
    resolve_overlaps [Box.mk 0 0 20 20, Box.mk 16 0 10 10] = [Box.mk 0 0 20 20] := by
  refine ⟨contour_dedup_overlap_bound.1 _, ?_⟩
  exact contour_dedup_overlap_bound.2 (Box.mk 0 0 20 20) (Box.mk 16 0 10 10)
    (by decide) (by decide) (by decide)

/-!
## Line segments

A Hough line is an ordered pair of 2D integer endpoints.  The source mixes
the (row, column) and (column, row) readings of a point across stages; the
embedding simply carries pairs of pairs of integers and applies each stage's
own reading, exactly as the Python code does.
-/

abbrev Pt := ℤ × ℤ

abbrev Seg := Pt × Pt

/-- The angle of a line in degrees, as computed by `protractor`
(lines 21-31 of both variants): `arctan` of the slope scaled to degrees,
with the vertical case guarded (`np.arctan(np.inf)` is exactly pi/2, hence
90 degrees).  The float computation is modelled over the reals. -/
noncomputable def protractor (l : Seg) : ℝ :=
  (if l.2.1 - l.1.1 = 0 then Real.pi / 2
   else Real.arctan (((l.2.2 - l.1.2 : ℤ) : ℝ) / ((l.2.1 - l.1.1 : ℤ) : ℝ)))
    * 180 / Real.pi

/-- Decidable form of the comparison `protractor(line) < 45` used by the
length filter and the horizontal / vertical classification: for a nonvertical
line, `arctan s * 180 / pi < 45` holds iff the slope `s` is less than 1
(proved in `protractorLt45_iff`). -/
def protractorLt45 (l : Seg) : Bool :=
  let d := l.2.1 - l.1.1
  let n := l.2.2 - l.1.2
  if d = 0 then false else if 0 < d then decide (n < d) else decide (d < n)

/-- Decidable form of the comparison `protractor(line) > 45`. -/
def protractorGt45 (l : Seg) : Bool :=
  let d := l.2.1 - l.1.1
  let n := l.2.2 - l.1.2
  if d = 0 then true else if 0 < d then decide (d < n) else decide (n < d)

theorem deg_lt_45_iff {a : ℝ} : a * 180 / Real.pi < 45 ↔ a < Real.pi / 4 := by
  rw [div_lt_iff₀ Real.pi_pos]
  constructor <;> intro h <;> nlinarith [Real.pi_pos]

theorem deg_gt_45_iff {a : ℝ} : 45 < a * 180 / Real.pi ↔ Real.pi / 4 < a := by
  rw [lt_div_iff₀ Real.pi_pos]
  constructor <;> intro h <;> nlinarith [Real.pi_pos]

theorem pi_half_deg : Real.pi / 2 * 180 / Real.pi = 90 := by
  field_simp
  ring

theorem protractorLt45_iff (l : Seg) : protractorLt45 l = true ↔ protractor l < 45 := by
  unfold protractorLt45 protractor
  by_cases hd : l.2.1 - l.1.1 = 0
  · simp only [hd, if_pos, if_true]
    rw [pi_half_deg]
    norm_num
  · rw [if_neg hd, if_neg hd, deg_lt_45_iff, ← Real.arctan_one,
      Real.arctan_strictMono.lt_iff_lt]
    by_cases hpos : 0 < l.2.1 - l.1.1
    · rw [if_pos hpos, div_lt_one (by exact_mod_cast hpos)]
      simp only [decide_eq_true_eq]
      exact ⟨fun h => by exact_mod_cast h, fun h => by exact_mod_cast h⟩
    · have hneg : l.2.1 - l.1.1 < 0 := by omega
      rw [if_neg hpos, div_lt_one_of_neg (by exact_mod_cast hneg)]
      simp only [decide_eq_true_eq]
      exact ⟨fun h => by exact_mod_cast h, fun h => by exact_mod_cast h⟩

theorem protractorGt45_iff (l : Seg) : protractorGt45 l = true ↔ 45 < protractor l := by
  unfold protractorGt45 protractor
  by_cases hd : l.2.1 - l.1.1 = 0
  · simp only [hd, if_pos, if_true]
    rw [pi_half_deg]
    norm_num
  · rw [if_neg hd, if_neg hd, deg_gt_45_iff, ← Real.arctan_one,
      Real.arctan_strictMono.lt_iff_lt]
    by_cases hpos : 0 < l.2.1 - l.1.1
    · rw [if_pos hpos, one_lt_div (by exact_mod_cast hpos)]
      simp only [decide_eq_true_eq]
      exact ⟨fun h => by exact_mod_cast h, fun h => by exact_mod_cast h⟩
    · have hneg : l.2.1 - l.1.1 < 0 := by omega
      rw [if_neg hpos, one_lt_div_of_neg (by exact_mod_cast hneg)]
      simp only [decide_eq_true_eq]
      exact ⟨fun h => by exact_mod_cast h, fun h => by exact_mod_cast h⟩

/-- `in_line(line1, line2, orientation)` (lines 33-47): horizontal pairs share
their first coordinates pairwise, vertical pairs their second coordinates. -/
def in_line (l1 l2 : Seg) (orientation : Bool) : Bool :=
  if orientation then decide (l1.1.1 = l2.1.1 ∧ l1.2.1 = l2.2.1)
  else decide (l1.1.2 = l2.1.2 ∧ l1.2.2 = l2.2.2)

/-- Ascending sort of an integer list (Python `lst.sort()`). -/
def isortZ : List ℤ → List ℤ := stableSort fun a b => decide (a ≤ b)

/-- Element `i` of the ascending sort of `l` (sorting then indexing, as
`merge_line` does with its four-element `row_list` / `col_list`). -/
def sortedNth (l : List ℤ) (i : ℕ) : ℤ := (isortZ l).getD i 0

/-- `merge_line(line1, line2, orientation, distance)` (lines 49-68): sort the
four first coordinates and the four second coordinates independently; if the
gap between the middle two coordinates of the merge axis is within
`distance`, return the bounding segment, else return `line1` unchanged. -/
def merge_line (l1 l2 : Seg) (orientation : Bool) (distance : ℤ) : Seg :=
  let rows := [l1.1.1, l1.2.1, l2.1.1, l2.2.1]
  let cols := [l1.1.2, l1.2.2, l2.1.2, l2.2.2]
  if orientation then
    if sortedNth cols 2 - sortedNth cols 1 ≤ distance then
      ((sortedNth rows 0, sortedNth cols 0), (sortedNth rows 3, sortedNth cols 3))
    else l1
  else
    if sortedNth rows 2 - sortedNth rows 1 ≤ distance then
      ((sortedNth rows 0, sortedNth cols 0), (sortedNth rows 3, sortedNth cols 3))
    else l1

/-- `line_len` (lines 70-73): Chebyshev length of a segment. -/
def line_len (l : Seg) : ℤ := max |l.1.1 - l.2.1| |l.1.2 - l.2.2|

/-!
## The collinear merge stage (netlify lines 364-386, src lines 153-175)

The Python code scans a snapshot of the segment list (`segment_lines[:]`)
while mutating the live list: a successful merge removes the first still
present occurrence of each of the two segments and appends the bounding
segment.  The inner loop's snapshot is re-taken at each outer iteration.
-/

/-- The list update a successful merge performs:
`if segment_line in segment_lines: remove` for both segments (`List.erase`
is a no-op when the element is absent, like the guarded `remove`),
then append the merged segment. -/
def mergeUpdate (cur : List Seg) (l1 l2 m : Seg) : List Seg :=
  ((cur.erase l1).erase l2) ++ [m]

/-- One outer iteration of the mutate-while-scanning merge loop: scan the
snapshot of the live list taken when the inner loop starts, applying
`mergeUpdate` on each successful merge. -/
def innerPass (orientation : Bool) (distance : ℤ) (l : Seg) (live : List Seg) :
    List Seg :=
  live.foldl
    (fun cur l2 =>
      if l ≠ l2 ∧ in_line l l2 orientation = true then
        let m := merge_line l l2 orientation distance
        if m ≠ l then mergeUpdate cur l l2 m else cur
      else cur)
    live

/-- A full pass for one orientation: the outer loop scans a snapshot of the
original list while the live list is being mutated. -/
def mergePass (orientation : Bool) (distance : ℤ) (lines : List Seg) : List Seg :=
  lines.foldl (fun live l => innerPass orientation distance l live) lines

/-- The collinear merge stage: one horizontal pass, then one vertical pass. -/
def mergeStage (distance : ℤ) (lines : List Seg) : List Seg :=
  mergePass false distance (mergePass true distance lines)

/-- C6 counterexample: on three segments that all pass the netlify angle
filter, the horizontal pass leaves two distinct inline horizontal segments
whose merge would still succeed and produce a new segment, so the stage does
not run the merge to a fixed point. -/
theorem mergeStage_not_fixed_point :
    ∃ l1 ∈ mergeStage 999999999
        [((1, 0), (2, 100)), ((2, 300), (1, 200)), ((2, 500), (1, 400))],
      ∃ l2 ∈ mergeStage 999999999
          [((1, 0), (2, 100)), ((2, 300), (1, 200)), ((2, 500), (1, 400))],
        l1 ≠ l2 ∧ in_line l1 l2 true = true ∧
          merge_line l1 l2 true 999999999 ≠ l1 := by
  decide

/-- C6 amended: the merge stage is one bounded horizontal pass followed by one
bounded vertical pass (not an iteration to a fixed point), and a successful
merge strictly reduces the segment count by one exactly when both merged
segments are still present in the working list. -/
theorem mergeUpdate_length :
    (∀ d lines, mergeStage d lines = mergePass false d (mergePass true d lines)) ∧
    (∀ (cur : List Seg) (l1 l2 m : Seg), l1 ∈ cur → l2 ∈ cur.erase l1 →
      (mergeUpdate cur l1 l2 m).length = cur.length - 1) := by
  refine ⟨fun _ _ => rfl, ?_⟩
  intro cur l1 l2 m h1 h2
  have hp : 0 < (cur.erase l1).length := List.length_pos_of_mem h2
  have he : (cur.erase l1).length = cur.length - 1 := List.length_erase_of_mem h1
  rw [mergeUpdate, List.length_append, List.length_erase_of_mem h2, he]
  simp only [List.length_cons, List.length_nil]
  omega

/-- Witness for `mergeUpdate_length` at a concrete two-segment list. -/
theorem mergeUpdate_length_witness :
    (mergeUpdate [((0, 0), (0, 5)), ((0, 7), (0, 9))]
        ((0, 0), (0, 5)) ((0, 7), (0, 9)) ((0, 0), (0, 9))).length = 1 :=
  mergeUpdate_length.2 _ _ _ _ (by decide) (by decide)

/-- C10: `protractor` is total for every pair of integer endpoints: the
vertical case (zero horizontal difference) is guarded so no division by zero
occurs and the result is exactly 90 degrees, every returned angle lies in
[-90, 90] degrees, and hence the 180-degree acceptance branch of the angle
filter can never be taken. -/
theorem protractor_total_range (l : Seg) :
    (l.2.1 - l.1.1 = 0 → protractor l = 90) ∧
    -90 ≤ protractor l ∧ protractor l ≤ 90 ∧ ¬ |protractor l - 180| ≤ 5 := by
  have hpi := Real.pi_pos
  have hb : -90 ≤ protractor l ∧ protractor l ≤ 90 := by
    unfold protractor
    by_cases hd : l.2.1 - l.1.1 = 0
    · rw [if_pos hd, pi_half_deg]
      norm_num
    · rw [if_neg hd]
      set s : ℝ := ((l.2.2 - l.1.2 : ℤ) : ℝ) / ((l.2.1 - l.1.1 : ℤ) : ℝ) with hs
      have h1 := Real.arctan_lt_pi_div_two s
      have h2 := Real.neg_pi_div_two_lt_arctan s
      constructor
      · rw [le_div_iff₀ hpi]
        nlinarith
      · rw [div_le_iff₀ hpi]
        nlinarith
  refine ⟨?_, hb.1, hb.2, ?_⟩
  · intro hv
    unfold protractor
    rw [if_pos hv, pi_half_deg]
  · intro h
    have h175 := (abs_le.mp h).1
    linarith [hb.2]

/-- Witness for `protractor_total_range` at the vertical segment
from (0, 0) to (0, 5). -/
theorem protractor_total_range_witness :
    protractor ((0, 0), (0, 5)) = 90 ∧
      ¬ |protractor ((0, 0), (0, 5)) - 180| ≤ 5 :=
  ⟨(protractor_total_range _).1 (by decide), (protractor_total_range _).2.2.2⟩

/-!
## The length filter (netlify lines 389-393, src lines 177-182)

`cutting_lines` keeps a merged segment iff
`(protractor(line) < 45 and line_len(line) >= hor_line_length) or
 (protractor(line) > 45 and line_len(line) >= ver_line_length)` —
both comparisons with 45 are strict.
-/

def cuttingFilter (horLen verLen : ℤ) (l : Seg) : Bool :=
  (protractorLt45 l && decide (horLen ≤ line_len l)) ||
    (protractorGt45 l && decide (verLen ≤ line_len l))

/-- The length filter as the spec words it (for refinement comparison only):
a segment whose angle is exactly 45 degrees is judged by the vertical
threshold. -/
def cuttingFilterSpec (horLen verLen : ℤ) (l : Seg) : Prop :=
  (protractor l < 45 ∧ horLen ≤ line_len l) ∨
    (45 ≤ protractor l ∧ verLen ≤ line_len l)

/-- A segment from (0,0) along the exact diagonal has angle exactly 45. -/
theorem protractor_eq_45_of_diag {l : Seg} (hd : l.2.1 - l.1.1 ≠ 0)
    (heq : l.2.2 - l.1.2 = l.2.1 - l.1.1) : protractor l = 45 := by
  unfold protractor
  rw [if_neg hd, heq, div_self (by exact_mod_cast hd), Real.arctan_one]
  field_simp
  ring

/-- C9 counterexample: for the diagonal segment from (0,0) to (10,10) (angle
exactly 45 degrees, length 10) and thresholds 5/5, the spec's filter retains
the segment via the vertical branch but the code's filter rejects it: the
claimed "retains if and only if" is false. -/
theorem cuttingFilter_45_counterexample :
    ¬ (cuttingFilter 5 5 ((0, 0), (10, 10)) = true ↔
        cuttingFilterSpec 5 5 ((0, 0), (10, 10))) := by
  intro h
  have h45 : protractor ((0, 0), (10, 10)) = 45 :=
    protractor_eq_45_of_diag (by decide) (by decide)
  have hspec : cuttingFilterSpec 5 5 ((0, 0), (10, 10)) := by
    refine Or.inr ⟨?_, ?_⟩
    · rw [h45]
    · show (5 : ℤ) ≤ line_len ((0, 0), (10, 10))
      decide
  have hcode := h.mpr hspec
  have hfalse : cuttingFilter 5 5 ((0, 0), (10, 10)) = false := by decide
  rw [hfalse] at hcode
  exact Bool.noConfusion hcode

/-- C9 amended: the length filter retains a merged segment if and only if
(its angle is strictly less than 45 degrees and its length reaches the
horizontal threshold) or (its angle is strictly greater than 45 degrees and
its length reaches the vertical threshold), where length is the larger
absolute coordinate difference of the endpoints; a segment whose angle is
exactly 45 degrees is never retained, whatever the thresholds. -/
theorem cuttingFilter_iff (horLen verLen : ℤ) (l : Seg) :
    (cuttingFilter horLen verLen l = true ↔
      ((protractor l < 45 ∧ horLen ≤ line_len l) ∨
        (45 < protractor l ∧ verLen ≤ line_len l))) ∧
    (protractor l = 45 → cuttingFilter horLen verLen l = false) := by
  constructor
  · unfold cuttingFilter
    simp only [Bool.or_eq_true, Bool.and_eq_true, decide_eq_true_eq,
      protractorLt45_iff, protractorGt45_iff]
  · intro h45
    have h1 : protractorLt45 l = false := by
      rw [Bool.eq_false_iff]
      intro ht
      exact absurd ((protractorLt45_iff l).mp ht) (by rw [h45]; exact lt_irrefl 45)
    have h2 : protractorGt45 l = false := by
      rw [Bool.eq_false_iff]
      intro ht
      exact absurd ((protractorGt45_iff l).mp ht) (by rw [h45]; exact lt_irrefl 45)
    unfold cuttingFilter
    rw [h1, h2]
    rfl

/-- Witness for `cuttingFilter_iff`: the diagonal segment to (7,7) is never
retained. -/
theorem cuttingFilter_iff_witness :
    cuttingFilter 5 5 ((0, 0), (7, 7)) = false :=
  (cuttingFilter_iff 5 5 _).2
    (protractor_eq_45_of_diag (by decide) (by decide))

/-!
## BorderCropper (`remove_black_borders`, netlify lines 102-131)

An image is modelled by its dimensions and its grayscale pixel function
(the `cv2.cvtColor` output that the function actually reads); the cropped
image is the region of the input described by the returned `CropInfo`.
-/

structure Img where
  width : ℕ
  height : ℕ
  pix : ℕ → ℕ → ℕ

structure CropInfo where
  x : ℕ
  y : ℕ
  w : ℕ
  h : ℕ
  deriving DecidableEq, Repr

/-- Row-major coordinates `(row, col)` of all pixels whose grayscale value
exceeds the black threshold 15 (`np.column_stack(np.where(gray > 15))`). -/
def nonBlackCoords (img : Img) : List (ℕ × ℕ) :=
  (List.range img.height).flatMap fun y =>
    (List.range img.width).filterMap fun x =>
      if 15 < img.pix y x then some (y, x) else none

def listMinD : List ℕ → ℕ
  | [] => 0
  | x :: xs => xs.foldl min x

def listMaxD : List ℕ → ℕ
  | [] => 0
  | x :: xs => xs.foldl max x

theorem foldl_min_le (xs : List ℕ) :
    ∀ x, xs.foldl min x ≤ x ∧ ∀ y ∈ xs, xs.foldl min x ≤ y := by
  induction xs with
  | nil => intro x; exact ⟨le_refl x, by simp⟩
  | cons a as ih =>
    intro x
    have h := ih (min x a)
    simp only [List.foldl_cons]
    refine ⟨le_trans h.1 (min_le_left x a), ?_⟩
    intro y hy
    rcases List.mem_cons.mp hy with rfl | hy'
    · exact le_trans h.1 (min_le_right x y)
    · exact h.2 y hy'

theorem foldl_max_ge (xs : List ℕ) :
    ∀ x, x ≤ xs.foldl max x ∧ ∀ y ∈ xs, y ≤ xs.foldl max x := by
  induction xs with
  | nil => intro x; exact ⟨le_refl x, by simp⟩
  | cons a as ih =>
    intro x
    have h := ih (max x a)
    simp only [List.foldl_cons]
    refine ⟨le_trans (le_max_left x a) h.1, ?_⟩
    intro y hy
    rcases List.mem_cons.mp hy with rfl | hy'
    · exact le_trans (le_max_right x y) h.1
    · exact h.2 y hy'

theorem foldl_min_mem (xs : List ℕ) :
    ∀ x, xs.foldl min x = x ∨ xs.foldl min x ∈ xs := by
  induction xs with
  | nil => intro x; left; rfl
  | cons a as ih =>
    intro x
    simp only [List.foldl_cons]
    rcases ih (min x a) with h | h
    · rcases min_choice x a with hc | hc
      · left; rw [h, hc]
      · right; rw [h, hc]; exact List.mem_cons_self a as
    · right; exact List.mem_cons_of_mem a h

theorem foldl_max_mem (xs : List ℕ) :
    ∀ x, xs.foldl max x = x ∨ xs.foldl max x ∈ xs := by
  induction xs with
  | nil => intro x; left; rfl
  | cons a as ih =>
    intro x
    simp only [List.foldl_cons]
    rcases ih (max x a) with h | h
    · rcases max_choice x a with hc | hc
      · left; rw [h, hc]
      · right; rw [h, hc]; exact List.mem_cons_self a as
    · right; exact List.mem_cons_of_mem a h

theorem listMinD_le (l : List ℕ) : ∀ x ∈ l, listMinD l ≤ x := by
  cases l with
  | nil => simp
  | cons a as =>
    intro x hx
    rcases List.mem_cons.mp hx with rfl | hx'
    · exact (foldl_min_le as x).1
    · exact (foldl_min_le as a).2 x hx'

theorem listMaxD_ge (l : List ℕ) : ∀ x ∈ l, x ≤ listMaxD l := by
  cases l with
  | nil => simp
  | cons a as =>
    intro x hx
    rcases List.mem_cons.mp hx with rfl | hx'
    · exact (foldl_max_ge as x).1
    · exact (foldl_max_ge as a).2 x hx'

theorem listMinD_mem (l : List ℕ) (h : l ≠ []) : listMinD l ∈ l := by
  cases l with
  | nil => exact absurd rfl h
  | cons a as =>
    rcases foldl_min_mem as a with h' | h'
    · rw [listMinD, h']; exact List.mem_cons_self a as
    · exact List.mem_cons_of_mem a (by rw [listMinD]; exact h')

theorem listMaxD_mem (l : List ℕ) (h : l ≠ []) : listMaxD l ∈ l := by
  cases l with
  | nil => exact absurd rfl h
  | cons a as =>
    rcases foldl_max_mem as a with h' | h'
    · rw [listMaxD, h']; exact List.mem_cons_self a as
    · exact List.mem_cons_of_mem a (by rw [listMaxD]; exact h')

theorem mem_nonBlackCoords (img : Img) (y x : ℕ) :
    (y, x) ∈ nonBlackCoords img ↔
      y < img.height ∧ x < img.width ∧ 15 < img.pix y x := by
  unfold nonBlackCoords
  simp only [List.mem_flatMap, List.mem_filterMap, List.mem_range]
  constructor
  · rintro ⟨y', hy', x', hx', hfx⟩
    by_cases h : 15 < img.pix y' x'
    · rw [if_pos h] at hfx
      obtain ⟨rfl, rfl⟩ : y' = y ∧ x' = x := by
        injection hfx with h2
        exact ⟨congrArg Prod.fst h2, congrArg Prod.snd h2⟩
      exact ⟨hy', hx', h⟩
    · rw [if_neg h] at hfx
      exact Option.noConfusion hfx
  · rintro ⟨h1, h2, h3⟩
    exact ⟨y, h1, x, h2, by rw [if_pos h3]⟩

/-- `remove_black_borders`: bounding box of the non-black pixels, padded by 5
and clamped to the image; an all-black image yields the full extent. -/
def remove_black_borders (img : Img) : CropInfo :=
  let coords := nonBlackCoords img
  if coords = [] then ⟨0, 0, img.width, img.height⟩
  else
    let y0 := listMinD (coords.map Prod.fst) - 5
    let x0 := listMinD (coords.map Prod.snd) - 5
    let y1 := min img.height (listMaxD (coords.map Prod.fst) + 5)
    let x1 := min img.width (listMaxD (coords.map Prod.snd) + 5)
    ⟨x0, y0, x1 - x0, y1 - y0⟩

theorem nonBlackCoords_eq_nil (img : Img)
    (h : ∀ y < img.height, ∀ x < img.width, img.pix y x ≤ 15) :
    nonBlackCoords img = [] := by
  rw [List.eq_nil_iff_forall_not_mem]
  rintro ⟨y, x⟩ hp
  rw [mem_nonBlackCoords] at hp
  exact absurd hp.2.2 (not_lt.mpr (h y hp.1 x hp.2.1))

/-- Every coordinate bound needed about the crop rectangle of a non-all-black
image. -/
theorem crop_raw_bounds (img : Img) (hc : nonBlackCoords img ≠ []) :
    listMinD ((nonBlackCoords img).map Prod.snd) < img.width ∧
    listMaxD ((nonBlackCoords img).map Prod.snd) < img.width ∧
    listMinD ((nonBlackCoords img).map Prod.fst) < img.height ∧
    listMaxD ((nonBlackCoords img).map Prod.fst) < img.height ∧
    listMinD ((nonBlackCoords img).map Prod.snd) ≤
      listMaxD ((nonBlackCoords img).map Prod.snd) ∧
    listMinD ((nonBlackCoords img).map Prod.fst) ≤
      listMaxD ((nonBlackCoords img).map Prod.fst) := by
  have hmapx : ((nonBlackCoords img).map Prod.snd) ≠ [] := by
    simpa using hc
  have hmapy : ((nonBlackCoords img).map Prod.fst) ≠ [] := by
    simpa using hc
  have hx : ∀ v ∈ (nonBlackCoords img).map Prod.snd, v < img.width := by
    intro v hv
    obtain ⟨⟨y, x⟩, hp, rfl⟩ := List.mem_map.mp hv
    exact ((mem_nonBlackCoords img y x).mp hp).2.1
  have hy : ∀ v ∈ (nonBlackCoords img).map Prod.fst, v < img.height := by
    intro v hv
    obtain ⟨⟨y, x⟩, hp, rfl⟩ := List.mem_map.mp hv
    exact ((mem_nonBlackCoords img y x).mp hp).1
  have hxmax := hx _ (listMaxD_mem _ hmapx)
  have hymax := hy _ (listMaxD_mem _ hmapy)
  have hxmin := listMinD_le _ _ (listMaxD_mem _ hmapx)
  have hymin := listMinD_le _ _ (listMaxD_mem _ hmapy)
  exact ⟨lt_of_le_of_lt hxmin hxmax, hxmax, lt_of_le_of_lt hymin hymax,
    hymax, hxmin, hymin⟩

/-- C8: the border cropper returns a region no larger than the input, with
crop offset and size within input bounds (`0 ≤ x, y` holds by the natural
number representation); and when no pixel is brighter than the black
threshold it returns the image unchanged with a full-extent CropInfo. -/
theorem remove_black_borders_bounds (img : Img) :
    (remove_black_borders img).w ≤ img.width ∧
    (remove_black_borders img).h ≤ img.height ∧
    (remove_black_borders img).x + (remove_black_borders img).w ≤ img.width ∧
    (remove_black_borders img).y + (remove_black_borders img).h ≤ img.height ∧
    ((∀ y < img.height, ∀ x < img.width, img.pix y x ≤ 15) →
      remove_black_borders img = ⟨0, 0, img.width, img.height⟩) := by
  by_cases hc : nonBlackCoords img = []
  · simp [remove_black_borders, hc]
  · obtain ⟨h1, h2, h3, h4, h5, h6⟩ := crop_raw_bounds img hc
    have hcrop : remove_black_borders img =
        ⟨listMinD ((nonBlackCoords img).map Prod.snd) - 5,
          listMinD ((nonBlackCoords img).map Prod.fst) - 5,
          min img.width (listMaxD ((nonBlackCoords img).map Prod.snd) + 5) -
            (listMinD ((nonBlackCoords img).map Prod.snd) - 5),
          min img.height (listMaxD ((nonBlackCoords img).map Prod.fst) + 5) -
            (listMinD ((nonBlackCoords img).map Prod.fst) - 5)⟩ := by
      rw [remove_black_borders]
      simp only [hc, if_neg, ite_false]
    rw [hcrop]
    dsimp only
    refine ⟨by omega, by omega, by omega, by omega, ?_⟩
    intro hall
    exact absurd (nonBlackCoords_eq_nil img hall) hc

/-- The cropped region of a positive-size image has positive size. -/
theorem remove_black_borders_pos (img : Img) (hw : 0 < img.width)
    (hh : 0 < img.height) :
    0 < (remove_black_borders img).w ∧ 0 < (remove_black_borders img).h := by
  by_cases hc : nonBlackCoords img = []
  · simp [remove_black_borders, hc, hw, hh]
  · obtain ⟨h1, h2, h3, h4, h5, h6⟩ := crop_raw_bounds img hc
    have hcrop : remove_black_borders img =
        ⟨listMinD ((nonBlackCoords img).map Prod.snd) - 5,
          listMinD ((nonBlackCoords img).map Prod.fst) - 5,
          min img.width (listMaxD ((nonBlackCoords img).map Prod.snd) + 5) -
            (listMinD ((nonBlackCoords img).map Prod.snd) - 5),
          min img.height (listMaxD ((nonBlackCoords img).map Prod.fst) + 5) -
            (listMinD ((nonBlackCoords img).map Prod.fst) - 5)⟩ := by
      rw [remove_black_borders]
      simp only [hc, if_neg, ite_false]
    rw [hcrop]
    dsimp only
    omega

/-- Witness for `remove_black_borders_bounds` at a concrete all-black 2 by 2
image. -/
theorem remove_black_borders_bounds_witness :
    remove_black_borders ⟨2, 2, fun _ _ => 0⟩ = ⟨0, 0, 2, 2⟩ ∧
      (remove_black_borders ⟨2, 2, fun _ _ => 0⟩).w ≤ 2 :=
  ⟨(remove_black_borders_bounds ⟨2, 2, fun _ _ => 0⟩).2.2.2.2
      (by intro y _ x _; show (0 : ℕ) ≤ 15; decide),
    (remove_black_borders_bounds ⟨2, 2, fun _ _ => 0⟩).1⟩

/-!
## Contour detector (`detect_panels_contour_based`, netlify lines 133-252)

The OpenCV collaborator supplies each contour as its `cv2.contourArea`
(a float, modelled as a rational) and its `cv2.boundingRect`.  Method 1
receives the edge-mask contours; method 2 receives one contour list per
adaptive-threshold parameter combination, scanned in order with the early
stop once 3 candidates are accumulated.
-/

structure Contour where
  area : ℚ
  box : Box
  deriving DecidableEq, Repr

/-- The shared area window: `min_area < area < max_area` with
`min_area = 0.02 * H * W` and `max_area = 0.9 * H * W`. -/
def areaWindowOK (cw ch : ℕ) (c : Contour) : Bool :=
  decide (((cw * ch : ℕ) : ℚ) * (2 / 100) < c.area) &&
    decide (c.area < ((cw * ch : ℕ) : ℚ) * (9 / 10))

/-- The shared size and aspect-ratio filter: `w > 100`, `h > 100`,
`0.2 < w / h < 10`. -/
def sizeAspectOK (c : Contour) : Bool :=
  decide (100 < c.box.w) && decide (100 < c.box.h) &&
    decide ((1 : ℚ) / 5 < (c.box.w : ℚ) / (c.box.h : ℚ)) &&
    decide ((c.box.w : ℚ) / (c.box.h : ℚ) < 10)

/-- Method 1 extra check: near an image edge (within 20 px) or area above
`0.05 * H * W`. -/
def nearEdgeOrLarge (cw ch : ℕ) (c : Contour) : Bool :=
  (decide (c.box.x < 20) || decide (c.box.y < 20) ||
      decide ((cw : ℤ) - 20 < c.box.x + c.box.w) ||
      decide ((ch : ℤ) - 20 < c.box.y + c.box.h)) ||
    decide (((ch * cw : ℕ) : ℚ) * (5 / 100) < c.area)

def method1 (cw ch : ℕ) (cs : List Contour) : List Box :=
  cs.filterMap fun c =>
    if areaWindowOK cw ch c && sizeAspectOK c && nearEdgeOrLarge cw ch c then
      some c.box
    else none

/-- Method 2 duplicate check: overlaps an accepted box by more than 50% of
its own area (`overlap_area > current_area * 0.5`, exactly `2*ov > cur`). -/
def overlapsHalf (bs : List Box) (b : Box) : Bool :=
  bs.any fun e => decide (boxArea b < 2 * interArea b e)

def method2Step (cw ch : ℕ) (bs : List Box) (cs : List Contour) : List Box :=
  cs.foldl
    (fun bs c =>
      if areaWindowOK cw ch c && sizeAspectOK c && !overlapsHalf bs c.box then
        bs ++ [c.box]
      else bs)
    bs

def method2 (cw ch : ℕ) : List Box → List (List Contour) → List Box
  | bs, [] => bs
  | bs, cs :: rest =>
    let nb := method2Step cw ch bs cs
    if 3 ≤ nb.length then nb else method2 cw ch nb rest

/-- `detect_panels_contour_based` on the cropped image: method 1, method 2
when fewer than 2 candidates, then the final overlap resolution. -/
def detect_panels_contour_based (cw ch : ℕ) (edgeContours : List Contour)
    (adaptiveContours : List (List Contour)) : List Box :=
  let m1 := method1 cw ch edgeContours
  let pb := if m1.length < 2 then method2 cw ch m1 adaptiveContours else m1
  resolve_overlaps pb

/-!
## Line-based fallback (netlify lines 324-546, src lines 114-319)
-/

/-- `sorted(list(set(lst)))`: ascending list of the distinct values. -/
def sortDedupZ (l : List ℤ) : List ℤ := (isortZ l).dedup

/-- The in-place sweep of `new_parallel_merge` (lines 75-87): the anchor
starts at 0, values within the threshold of the anchor are snapped onto it. -/
def sweepSnap (thr : ℤ) : ℤ → List ℤ → List ℤ
  | _, [] => []
  | curr, v :: vs =>
    if |v - curr| ≤ thr then curr :: sweepSnap thr curr vs
    else v :: sweepSnap thr v vs

def new_parallel_merge (l : List ℤ) (thr : ℤ) : List ℤ :=
  sortDedupZ (sweepSnap thr 0 (sortDedupZ l))

/-- `list(dict.fromkeys(lst))`: deduplication keeping first occurrences. -/
def dedupFirstGo (seen : List ℤ) : List ℤ → List ℤ
  | [] => []
  | x :: xs =>
    if x ∈ seen then dedupFirstGo seen xs
    else x :: dedupFirstGo (x :: seen) xs

def dedupFirst (l : List ℤ) : List ℤ := dedupFirstGo [] l

/-- `verticalcuts(lb, ub, vlist)` (lines 89-100): columns of the vertical
cutting lines whose span covers the band; Python returns `False` in place of
an empty list, modelled as an `Option`. -/
def verticalcuts (lb ub : ℤ) (vlist : List Seg) : Option (List ℤ) :=
  let lst := dedupFirst (vlist.filterMap fun l =>
    if l.1.2 ≤ lb ∧ ub ≤ l.2.2 then some l.1.1 else none)
  if lst = [] then none else some lst

structure LineParams where
  widthBorder : ℤ
  heightBorder : ℤ
  horLineLength : ℤ
  verLineLength : ℤ
  parallelMergeDst : ℤ
  deriving DecidableEq, Repr

/-- The netlify parameter preset (lines 335-347): factors 0.05 / 0.05 /
0.2 / 0.15 / 0.15 with the merge distance capped at 80.  `int(f * n)` on a
nonnegative value is the truncated exact rational, i.e. integer division. -/
def netlifyParams (cw ch : ℕ) : LineParams :=
  ⟨(5 * (cw : ℤ)) / 100, (5 * (ch : ℤ)) / 100, (20 * (cw : ℤ)) / 100,
    (15 * (ch : ℤ)) / 100, min ((15 * ((cw : ℤ) + (ch : ℤ))) / 200) 80⟩

/-- The src parameter preset (lines 123-136): factors 0.1 / 0.09 / 0.4 /
0.22 / 0.1 with the merge distance capped at 50. -/
def srcParams (cw ch : ℕ) : LineParams :=
  ⟨(10 * (cw : ℤ)) / 100, (9 * (ch : ℤ)) / 100, (40 * (cw : ℤ)) / 100,
    (22 * (ch : ℤ)) / 100, min ((10 * ((cw : ℤ) + (ch : ℤ))) / 200) 50⟩

/-- Horizontal cutting positions (netlify lines 399-403): the second
coordinate of the first endpoint of each horizontal cutting line, when
strictly inside the border margins. -/
def horizontalPositions (p : LineParams) (ch : ℤ) (cuts : List Seg) : List ℤ :=
  cuts.filterMap fun l =>
    if protractorLt45 l then
      if p.heightBorder < l.1.2 ∧ l.1.2 < ch - p.heightBorder then some l.1.2
      else none
    else none

/-- Vertical cutting positions (netlify lines 404-408): `(column, lower,
upper)` for each vertical cutting line strictly inside the border margins. -/
def verticalPositions (p : LineParams) (cw : ℤ) (cuts : List Seg) :
    List (ℤ × ℤ × ℤ) :=
  cuts.filterMap fun l =>
    if protractorLt45 l then none
    else if p.widthBorder < l.1.1 ∧ l.1.1 < cw - p.widthBorder then
      some (l.1.1, min l.1.2 l.2.2, max l.1.2 l.2.2)
    else none

/-- The vertical-bound adjustment loop (netlify lines 424-436): for each
consecutive pair of horizontal positions, snap the lower bound down and the
upper bound up to the enclosing band, the two conditionals sequenced exactly
as in the source. -/
def adjustStepUp (v1 : ℤ × ℤ × ℤ) (ab : ℤ × ℤ) : ℤ × ℤ × ℤ :=
  if v1.2.2 ≤ ab.2 ∧ ab.1 < v1.2.2 then (v1.1, v1.2.1, ab.2) else v1

def adjustStep (v : ℤ × ℤ × ℤ) (ab : ℤ × ℤ) : ℤ × ℤ × ℤ :=
  adjustStepUp (if ab.1 ≤ v.2.1 ∧ v.2.1 < ab.2 then (v.1, ab.1, v.2.2) else v) ab

def adjustVPos (hs : List ℤ) (v : ℤ × ℤ × ℤ) : ℤ × ℤ × ℤ :=
  (hs.zip hs.tail).foldl adjustStep v

/-- The vertical parallel merge (netlify lines 439-447): the running range
`c_pos_range` is reset on every miss and never grows, so its mean is always
the anchor column itself. -/
def mergeVColsGo (dst : ℤ) : ℤ → List (ℤ × ℤ × ℤ) → List (ℤ × ℤ × ℤ)
  | _, [] => []
  | anchor, v :: vs =>
    if |v.1 - anchor| ≤ dst then
      (anchor, v.2.1, v.2.2) :: mergeVColsGo dst anchor vs
    else v :: mergeVColsGo dst v.1 vs

def mergeVCols (dst : ℤ) (l : List (ℤ × ℤ × ℤ)) : List (ℤ × ℤ × ℤ) :=
  match l with
  | [] => []
  | v :: _ => mergeVColsGo dst v.1 l

/-- The shared grid construction: angle filter, collinear merge, length
filter, position extraction, horizontal parallel merge, sentinel rows,
vertical adjustment, vertical sort and merge; returns the deduplicated sorted
horizontal positions and the vertical cutting lines. -/
def gridCuts (anglePass : Seg → Bool) (p : LineParams) (distance : ℤ)
    (lines : List Seg) : List Seg :=
  (mergeStage distance (lines.filter anglePass)).filter
    (cuttingFilter p.horLineLength p.verLineLength)

/-- The horizontal positions with the sentinel rows 0, ch-1, ch-1 attached
(netlify lines 411-421), before the final `list(set(...))` + sort. -/
def gridHsAdj (anglePass : Seg → Bool) (p : LineParams) (ch distance : ℤ)
    (lines : List Seg) : List ℤ :=
  0 :: (new_parallel_merge
      (horizontalPositions p ch (gridCuts anglePass p distance lines))
      p.parallelMergeDst ++ [ch - 1, ch - 1])

/-- The vertical cutting lines (netlify lines 424-452): adjustment against
the sentinel-extended horizontal positions, stable sort by column, parallel
merge, then line construction. -/
def gridVLines (anglePass : Seg → Bool) (p : LineParams) (cw ch distance : ℤ)
    (lines : List Seg) : List Seg :=
  (mergeVCols p.parallelMergeDst
      (stableSort (fun a b => decide (a.1 ≤ b.1))
        ((verticalPositions p cw (gridCuts anglePass p distance lines)).map
          (adjustVPos (gridHsAdj anglePass p ch distance lines))))).map
    fun v => ((v.1, v.2.1), (v.1, v.2.2))

def gridOf (anglePass : Seg → Bool) (p : LineParams) (cw ch : ℤ)
    (distance : ℤ) (lines : List Seg) : List ℤ × List Seg :=
  (sortDedupZ (gridHsAdj anglePass p ch distance lines),
    gridVLines anglePass p cw ch distance lines)

structure Cand where
  box : Box
  cx : ℚ
  cy : ℚ
  deriving DecidableEq, Repr

/-- Model of the per-panel extraction and JPEG encoding (external PIL
collaborator): it raises on a degenerate (empty) region, which the band loop
catches (spec sections 4.3 and 7); on a nondegenerate region it succeeds. -/
def extractOK (w h : ℤ) : Bool := decide (0 < w) && decide (0 < h)

def candOf (cropX cropY x1 y1 x2 y2 : ℤ) : Cand :=
  { box := ⟨x1 + cropX, y1 + cropY, x2 - x1, y2 - y1⟩
    cx := (((x1 + cropX) + (x2 + cropX) : ℤ) : ℚ) / 2
    cy := (((y1 + cropY) + (y2 + cropY) : ℤ) : ℚ) / 2 }

/-- Emit one candidate per column pair, aborting the rest of the band on an
extraction failure while keeping the candidates already emitted. -/
def emitPairs (cropX cropY y1 y2 : ℤ) : List (ℤ × ℤ) → List Cand
  | [] => []
  | (x1, x2) :: rest =>
    if extractOK (x2 - x1) (y2 - y1) then
      candOf cropX cropY x1 y1 x2 y2 :: emitPairs cropX cropY y1 y2 rest
    else []

/-- One horizontal band of the netlify grid enumeration (lines 461-527):
columns are enumerated left to right (ascending `j`). -/
def bandCands (cw cropX cropY : ℤ) (vlines : List Seg) (y1 y2 : ℤ) : List Cand :=
  match verticalcuts y1 y2 vlines with
  | some cuts =>
    let cps := sortDedupZ (0 :: (cuts ++ [cw - 1]))
    emitPairs cropX cropY y1 y2 (cps.zip cps.tail)
  | none =>
    if extractOK (cw - 1 - 0) (y2 - y1) then
      [candOf cropX cropY 0 y1 (cw - 1) y2]
    else []

/-- The full netlify candidate list across all bands. -/
def lineCandidates (anglePass : Seg → Bool) (p : LineParams)
    (cw ch cropX cropY distance : ℤ) (lines : List Seg) : List Cand :=
  ((gridOf anglePass p cw ch distance lines).1.zip
      (gridOf anglePass p cw ch distance lines).1.tail).foldl
    (fun acc yy => acc ++ bandCands cw cropX cropY
      (gridOf anglePass p cw ch distance lines).2 yy.1 yy.2) []

/-- One horizontal band of the src grid enumeration (lines 254-317): columns
are enumerated right to left (descending `j`), ids assigned in emission
order. -/
def emitBoxesS (y1 y2 : ℤ) : List (ℤ × ℤ) → List Box
  | [] => []
  | (x1, x2) :: rest =>
    if extractOK (x2 - x1) (y2 - y1) then
      Box.mk x1 y1 (x2 - x1) (y2 - y1) :: emitBoxesS y1 y2 rest
    else []

def bandBoxesS (cw : ℤ) (vlines : List Seg) (y1 y2 : ℤ) : List Box :=
  match verticalcuts y1 y2 vlines with
  | some cuts =>
    let cps := sortDedupZ (0 :: (cuts ++ [cw - 1]))
    emitBoxesS y1 y2 (cps.zip cps.tail).reverse
  | none =>
    if extractOK (cw - 1 - 0) (y2 - y1) then
      [Box.mk 0 y1 (cw - 1) (y2 - y1)]
    else []

def lineBoxesS (anglePass : Seg → Bool) (p : LineParams) (cw ch distance : ℤ)
    (lines : List Seg) : List Box :=
  ((gridOf anglePass p cw ch distance lines).1.zip
      (gridOf anglePass p cw ch distance lines).1.tail).foldl
    (fun acc yy => acc ++ bandBoxesS cw
      (gridOf anglePass p cw ch distance lines).2 yy.1 yy.2) []

/-!
## Result envelope and the pipeline
-/

structure Panel where
  id : ℕ
  box : Box
  orderIdx : ℕ
  deriving DecidableEq, Repr

structure Envelope where
  panels : List Panel
  totalPanels : ℕ
  origWidth : ℕ
  origHeight : ℕ
  readingOrder : List ℕ
  error : Option String
  deriving DecidableEq, Repr

/-- The error envelope returned by the `except` clause (netlify lines
580-587): populated error string, empty panels, zero counts. -/
def errorEnvelope (e : String) : Envelope := ⟨[], 0, 0, 0, [], some e⟩

/-- Sequential ids and reading-order indices over an already ordered box
list; `readingOrder` is the 1-based `[i + 1 for i in range(n)]` of the
netlify variant. -/
def assembleEnvelope (wd ht : ℕ) (boxes : List Box) : Envelope :=
  { panels := ((List.range boxes.length).zip boxes).map fun p => ⟨p.1, p.2, p.1⟩
    totalPanels := boxes.length
    origWidth := wd
    origHeight := ht
    readingOrder := (List.range boxes.length).map (· + 1)
    error := none }

/-- Same, with the 0-based `readingOrder` of the src variant. -/
def assembleEnvelopeS (wd ht : ℕ) (boxes : List Box) : Envelope :=
  { panels := ((List.range boxes.length).zip boxes).map fun p => ⟨p.1, p.2, p.1⟩
    totalPanels := boxes.length
    origWidth := wd
    origHeight := ht
    readingOrder := List.range boxes.length
    error := none }

/-- The contour-path sort key (netlify line 305): top `y` ascending, then
left `x` descending. -/
def contourSortLe (a b : Box) : Bool :=
  decide (a.y < b.y ∨ (a.y = b.y ∧ b.x ≤ a.x))

/-- The line-path sort key (netlify line 531): center-y ascending, then
center-x descending. -/
def candLe (a b : Cand) : Bool :=
  decide (a.cy < b.cy ∨ (a.cy = b.cy ∧ b.cx ≤ a.cx))

/-- The contour branch of the netlify pipeline (lines 276-322): remap to
original coordinates, extract each panel (cannot fail: the filters force
`w, h > 100`; an impossible failure is modelled as an error), sort for manga
reading order, reassign sequential ids and indices. -/
def contourAssemble (wd ht : ℕ) (cropX cropY : ℤ) (detected : List Box) :
    Except String Envelope :=
  let mapped := detected.map fun b => Box.mk (b.x + cropX) (b.y + cropY) b.w b.h
  if mapped.all (fun b => extractOK b.w b.h) then
    .ok (assembleEnvelope wd ht (stableSort contourSortLe mapped))
  else .error "panel extraction failed"

/-- The line branch final assembly (netlify lines 529-546): global stable
sort by (center-y, -center-x), then sequential ids and order indices. -/
def lineAssemble (wd ht : ℕ) (cands : List Cand) : Envelope :=
  assembleEnvelope wd ht ((stableSort candLe cands).map Cand.box)

/-- The whole-image fallback (netlify lines 548-566). -/
def fallbackAssemble (wd ht : ℕ) : Except String Envelope :=
  if extractOK (wd : ℤ) (ht : ℤ) then
    .ok { panels := [⟨0, ⟨0, 0, (wd : ℤ), (ht : ℤ)⟩, 0⟩]
          totalPanels := 1
          origWidth := wd
          origHeight := ht
          readingOrder := [1]
          error := none }
  else .error "panel extraction failed on the full image"

/-- The body of the netlify `segment_manga_panels` (lines 254-578) as a
function of the decode result and the collaborator outputs; every exception
the Python `try` can catch is an `Except.error` of a stage.  The angle
filter's transcendental comparisons are a parameter (`anglePass`); all
theorems below hold for every choice of it. -/
def segmentCore (anglePass : Seg → Bool) (decoded : Except String Img)
    (edgeContours : List Contour) (adaptiveContours : List (List Contour))
    (houghLines : List Seg) : Except String Envelope :=
  match decoded with
  | .error e => .error e
  | .ok img =>
    let crop := remove_black_borders img
    let detected := detect_panels_contour_based crop.w crop.h edgeContours
      adaptiveContours
    if 1 < detected.length then
      contourAssemble img.width img.height (crop.x : ℤ) (crop.y : ℤ) detected
    else
      let cands := lineCandidates anglePass (netlifyParams crop.w crop.h)
        (crop.w : ℤ) (crop.h : ℤ) (crop.x : ℤ) (crop.y : ℤ) 999999999 houghLines
      if cands.isEmpty then fallbackAssemble img.width img.height
      else .ok (lineAssemble img.width img.height cands)

/-- The netlify `segment_manga_panels` with its enclosing `try`/`except`. -/
def segment_manga_panels (anglePass : Seg → Bool) (decoded : Except String Img)
    (edgeContours : List Contour) (adaptiveContours : List (List Contour))
    (houghLines : List Seg) : Envelope :=
  match segmentCore anglePass decoded edgeContours adaptiveContours houghLines with
  | .ok env => env
  | .error e => errorEnvelope e

/-- The body of the src `segment_manga_panels` (lines 102-351): no border
crop, no contour strategy, right-to-left column emission, 0-based reading
order. -/
def segmentCoreS (anglePass : Seg → Bool) (decoded : Except String Img)
    (houghLines : List Seg) : Except String Envelope :=
  match decoded with
  | .error e => .error e
  | .ok img =>
  let boxes := lineBoxesS anglePass (srcParams img.width img.height)
    (img.width : ℤ) (img.height : ℤ) 999999999 houghLines
  if boxes.isEmpty then
    if extractOK (img.width : ℤ) (img.height : ℤ) then
      .ok { panels := [⟨0, ⟨0, 0, (img.width : ℤ), (img.height : ℤ)⟩, 0⟩]
            totalPanels := 1
            origWidth := img.width
            origHeight := img.height
            readingOrder := [0]
            error := none }
    else .error "panel extraction failed on the full image"
  else .ok (assembleEnvelopeS img.width img.height boxes)

def segment_manga_panelsS (anglePass : Seg → Bool) (decoded : Except String Img)
    (houghLines : List Seg) : Envelope :=
  match segmentCoreS anglePass decoded houghLines with
  | .ok env => env
  | .error e => errorEnvelope e

structure MainOut where
  output : Envelope
  exitCode : ℕ
  deriving DecidableEq, Repr

/-- The netlify `main` (lines 589-607) as a function of `sys.argv`, the
stdin read result (`none` models a read exception) and the segmentation as an
oracle on the base64 payload: one argument means use it directly; otherwise
read stdin, exiting with status 1 on a read failure or empty input. -/
def mainN (seg : String → Envelope) (argv : List String)
    (stdinData : Option String) : MainOut :=
  if argv.length = 2 then ⟨seg (argv.getD 1 ""), 0⟩
  else
    match stdinData with
    | none => ⟨errorEnvelope "Failed to read input", 1⟩
    | some s =>
      if s.trim = "" then ⟨errorEnvelope "No input data provided", 1⟩
      else ⟨seg s.trim, 0⟩

/-- C5: a failure at any pipeline stage is converted into the error envelope
(populated error string, empty panels, totalPanels 0, empty readingOrder)
instead of propagating; and `main` exits with nonzero status exactly when the
input data cannot be read (no single argument and the stdin read fails or
strips to empty), while a caught segmentation failure is still printed as an
envelope with success status 0. -/
theorem error_envelope_and_exit_codes :
    (∀ (anglePass : Seg → Bool) (decoded : Except String Img) ec ac hl e,
      segmentCore anglePass decoded ec ac hl = .error e →
      segment_manga_panels anglePass decoded ec ac hl = errorEnvelope e ∧
        (errorEnvelope e).error = some e ∧ (errorEnvelope e).panels = [] ∧
        (errorEnvelope e).totalPanels = 0 ∧ (errorEnvelope e).readingOrder = []) ∧
    (∀ (seg : String → Envelope) (argv : List String) (stdinData : Option String),
      ((mainN seg argv stdinData).exitCode ≠ 0 ↔
        (argv.length ≠ 2 ∧
          (stdinData = none ∨ ∃ s, stdinData = some s ∧ s.trim = ""))) ∧
      (argv.length = 2 →
        mainN seg argv stdinData = ⟨seg (argv.getD 1 ""), 0⟩)) := by
  constructor
  · intro ap d ec ac hl e he
    refine ⟨?_, rfl, rfl, rfl, rfl⟩
    rw [segment_manga_panels, he]
  · intro seg argv st
    constructor
    · by_cases ha : argv.length = 2
      · simp [mainN, ha]
      · cases st with
        | none => simp [mainN, ha]
        | some s =>
          by_cases hs : s.trim = "" <;> simp [mainN, ha, hs]
    · intro ha
      simp only [mainN, if_pos ha]

/-- Witness for `error_envelope_and_exit_codes`: a decode failure yields the
error envelope, and a one-argument invocation whose segmentation fails still
exits 0. -/
theorem error_envelope_and_exit_codes_witness :
    segment_manga_panels (fun _ => true) (.error "bad image") [] [] [] =
        errorEnvelope "bad image" ∧
      (mainN (fun _ => errorEnvelope "bad image") ["prog", "abc"] none).exitCode
        = 0 := by
  refine ⟨(error_envelope_and_exit_codes.1 (fun _ => true) (.error "bad image")
    [] [] [] "bad image" rfl).1, ?_⟩
  rw [(error_envelope_and_exit_codes.2 (fun _ => errorEnvelope "bad image")
    ["prog", "abc"] none).2 rfl]

/-!
## Envelope structure lemmas
-/

theorem assembleEnvelope_spec (wd ht : ℕ) (boxes : List Box) :
    (assembleEnvelope wd ht boxes).readingOrder =
        List.range' 1 (assembleEnvelope wd ht boxes).totalPanels ∧
      (assembleEnvelope wd ht boxes).totalPanels =
        (assembleEnvelope wd ht boxes).panels.length := by
  constructor
  · show (List.range boxes.length).map (· + 1) = List.range' 1 boxes.length
    rw [List.range'_eq_map_range]
    exact List.map_congr_left fun a _ => Nat.add_comm a 1
  · show boxes.length = (((List.range boxes.length).zip boxes).map _).length
    rw [List.length_map, List.length_zip, List.length_range, min_self]

theorem assembleEnvelopeS_spec (wd ht : ℕ) (boxes : List Box) :
    (assembleEnvelopeS wd ht boxes).readingOrder =
        List.range (assembleEnvelopeS wd ht boxes).totalPanels ∧
      (assembleEnvelopeS wd ht boxes).totalPanels =
        (assembleEnvelopeS wd ht boxes).panels.length := by
  refine ⟨rfl, ?_⟩
  show boxes.length = (((List.range boxes.length).zip boxes).map _).length
  rw [List.length_map, List.length_zip, List.length_range, min_self]

theorem assembleEnvelope_box_mem (wd ht : ℕ) (boxes : List Box) :
    ∀ p ∈ (assembleEnvelope wd ht boxes).panels, p.box ∈ boxes := by
  intro p hp
  obtain ⟨⟨i, b⟩, hz, rfl⟩ := List.mem_map.mp hp
  exact (List.of_mem_zip hz).2

/-- Every successful result of the netlify pipeline body satisfies the
reading-order contract. -/
theorem segmentCore_ok_reading (anglePass : Seg → Bool)
    (decoded : Except String Img) (ec : List Contour)
    (ac : List (List Contour)) (hl : List Seg) (env : Envelope)
    (h : segmentCore anglePass decoded ec ac hl = .ok env) :
    env.readingOrder = List.range' 1 env.totalPanels ∧
      env.totalPanels = env.panels.length := by
  unfold segmentCore at h
  match hd : decoded with
  | .error e => exact Except.noConfusion h
  | .ok img =>
    simp only at h
    split at h
    · unfold contourAssemble at h
      simp only at h
      split at h
      · rw [Except.ok.injEq] at h
        rw [← h]
        exact assembleEnvelope_spec _ _ _
      · exact Except.noConfusion h
    · split at h
      · unfold fallbackAssemble at h
        split at h
        · rw [Except.ok.injEq] at h
          rw [← h]
          exact ⟨rfl, rfl⟩
        · exact Except.noConfusion h
      · rw [Except.ok.injEq] at h
        rw [← h]
        exact assembleEnvelope_spec _ _ _

/-- Every successful result of the src pipeline body satisfies the 0-based
reading-order contract. -/
theorem segmentCoreS_ok_reading (anglePass : Seg → Bool)
    (decoded : Except String Img) (hl : List Seg) (env : Envelope)
    (h : segmentCoreS anglePass decoded hl = .ok env) :
    env.readingOrder = List.range env.totalPanels ∧
      env.totalPanels = env.panels.length := by
  unfold segmentCoreS at h
  match hd : decoded with
  | .error e => exact Except.noConfusion h
  | .ok img =>
    simp only at h
    split at h
    · split at h
      · rw [Except.ok.injEq] at h
        rw [← h]
        exact ⟨rfl, rfl⟩
      · exact Except.noConfusion h
    · rw [Except.ok.injEq] at h
      rw [← h]
      exact assembleEnvelopeS_spec _ _ _

/-- C2: whenever segmentation succeeds (no error field), the reading order
has length equal to totalPanels and its values are the contiguous range from
the variant's fixed base: 1..n in the netlify variant, 0..n-1 in the src
variant. -/
theorem reading_order_contiguous :
    (∀ (anglePass : Seg → Bool) (decoded : Except String Img) ec ac hl,
      (segment_manga_panels anglePass decoded ec ac hl).error = none →
      (segment_manga_panels anglePass decoded ec ac hl).readingOrder =
          List.range' 1
            (segment_manga_panels anglePass decoded ec ac hl).totalPanels ∧
        (segment_manga_panels anglePass decoded ec ac hl).totalPanels =
          (segment_manga_panels anglePass decoded ec ac hl).panels.length) ∧
    (∀ (anglePass : Seg → Bool) (decoded : Except String Img) hl,
      (segment_manga_panelsS anglePass decoded hl).error = none →
      (segment_manga_panelsS anglePass decoded hl).readingOrder =
          List.range (segment_manga_panelsS anglePass decoded hl).totalPanels ∧
        (segment_manga_panelsS anglePass decoded hl).totalPanels =
          (segment_manga_panelsS anglePass decoded hl).panels.length) := by
  constructor
  · intro ap d ec ac hl herr
    rw [segment_manga_panels] at herr ⊢
    match hc : segmentCore ap d ec ac hl with
    | .ok env =>
      exact segmentCore_ok_reading ap d ec ac hl env hc
    | .error e =>
      rw [hc] at herr
      exact Option.noConfusion herr
  · intro ap d hl herr
    rw [segment_manga_panelsS] at herr ⊢
    match hc : segmentCoreS ap d hl with
    | .ok env =>
      exact segmentCoreS_ok_reading ap d hl env hc
    | .error e =>
      rw [hc] at herr
      exact Option.noConfusion herr

/-- Witness for `reading_order_contiguous` on a concrete 2 by 1 all-black
image with no contours and no lines (the whole-image fallback). -/
theorem reading_order_contiguous_witness :
    (segment_manga_panels (fun _ => true) (.ok ⟨2, 1, fun _ _ => 0⟩)
        [] [] []).readingOrder =
      List.range' 1 (segment_manga_panels (fun _ => true)
        (.ok ⟨2, 1, fun _ _ => 0⟩) [] [] []).totalPanels :=
  ((reading_order_contiguous.1 (fun _ => true) (.ok ⟨2, 1, fun _ _ => 0⟩)
    [] [] []) (by decide)).1

/-- C4: if the contour strategy returns fewer than 2 candidates and the
line-based fallback emits zero panels, the pipeline returns exactly one panel
covering the whole original image with totalPanels 1 and the one-element
reading order of the variant's numbering base — [1] in the netlify variant,
[0] in the src variant — rather than an empty result or an error. -/
theorem whole_image_fallback :
    (∀ (anglePass : Seg → Bool) (img : Img) (ec : List Contour)
        (ac : List (List Contour)) (hl : List Seg),
      0 < img.width → 0 < img.height →
      (detect_panels_contour_based (remove_black_borders img).w
          (remove_black_borders img).h ec ac).length < 2 →
      lineCandidates anglePass
          (netlifyParams (remove_black_borders img).w (remove_black_borders img).h)
          ((remove_black_borders img).w : ℤ) ((remove_black_borders img).h : ℤ)
          ((remove_black_borders img).x : ℤ) ((remove_black_borders img).y : ℤ)
          999999999 hl = [] →
      segment_manga_panels anglePass (.ok img) ec ac hl =
        ⟨[⟨0, ⟨0, 0, (img.width : ℤ), (img.height : ℤ)⟩, 0⟩], 1,
          img.width, img.height, [1], none⟩) ∧
    (∀ (anglePass : Seg → Bool) (img : Img) (hl : List Seg),
      0 < img.width → 0 < img.height →
      lineBoxesS anglePass (srcParams img.width img.height)
          (img.width : ℤ) (img.height : ℤ) 999999999 hl = [] →
      segment_manga_panelsS anglePass (.ok img) hl =
        ⟨[⟨0, ⟨0, 0, (img.width : ℤ), (img.height : ℤ)⟩, 0⟩], 1,
          img.width, img.height, [0], none⟩) := by
  constructor
  · intro ap img ec ac hl hw hh hdet hline
    have hext : extractOK (img.width : ℤ) (img.height : ℤ) = true := by
      simp only [extractOK, Bool.and_eq_true, decide_eq_true_eq]
      exact ⟨by exact_mod_cast hw, by exact_mod_cast hh⟩
    rw [segment_manga_panels]
    have hcore : segmentCore ap (.ok img) ec ac hl =
        fallbackAssemble img.width img.height := by
      unfold segmentCore
      simp only
      rw [if_neg (by omega), hline]
      simp
    rw [hcore, fallbackAssemble, if_pos hext]
  · intro ap img hl hw hh hline
    have hext : extractOK (img.width : ℤ) (img.height : ℤ) = true := by
      simp only [extractOK, Bool.and_eq_true, decide_eq_true_eq]
      exact ⟨by exact_mod_cast hw, by exact_mod_cast hh⟩
    rw [segment_manga_panelsS]
    have hcore : segmentCoreS ap (.ok img) hl =
        .ok ⟨[⟨0, ⟨0, 0, (img.width : ℤ), (img.height : ℤ)⟩, 0⟩], 1,
          img.width, img.height, [0], none⟩ := by
      unfold segmentCoreS
      simp only
      rw [hline]
      simp only [List.isEmpty_nil, if_true, if_pos hext]
    rw [hcore]

/-- Witness for `whole_image_fallback` on all-black images of height 1 (no
bands, hence zero line-derived panels). -/
theorem whole_image_fallback_witness :
    segment_manga_panels (fun _ => true) (.ok ⟨2, 1, fun _ _ => 0⟩) [] [] [] =
        ⟨[⟨0, ⟨0, 0, 2, 1⟩, 0⟩], 1, 2, 1, [1], none⟩ ∧
      segment_manga_panelsS (fun _ => true) (.ok ⟨3, 1, fun _ _ => 0⟩) [] =
        ⟨[⟨0, ⟨0, 0, 3, 1⟩, 0⟩], 1, 3, 1, [0], none⟩ :=
  ⟨whole_image_fallback.1 (fun _ => true) ⟨2, 1, fun _ _ => 0⟩ [] [] []
      (by decide) (by decide) (by decide) (by decide),
    whole_image_fallback.2 (fun _ => true) ⟨3, 1, fun _ _ => 0⟩ []
      (by decide) (by decide) (by decide)⟩

/-!
## Ordering of the grid enumeration (C7)
-/

theorem mem_sortDedupZ (l : List ℤ) (x : ℤ) : x ∈ sortDedupZ l ↔ x ∈ l := by
  rw [sortDedupZ, List.mem_dedup, isortZ, mem_stableSort]

theorem sortDedupZ_sorted (l : List ℤ) : (sortDedupZ l).Pairwise (· < ·) := by
  have hle : (isortZ l).Pairwise (fun a b : ℤ => (decide (a ≤ b) : Bool) = true) :=
    pairwise_stableSort
      (fun a b => by
        rcases le_total a b with h | h
        · left; simpa using h
        · right; simpa using h)
      (fun a b c hab hbc => by
        simp only [decide_eq_true_eq] at hab hbc ⊢
        exact le_trans hab hbc)
      l
  have hle' : (isortZ l).Pairwise (· ≤ ·) :=
    hle.imp fun h => by simpa using h
  have hp : (sortDedupZ l).Pairwise (· ≤ ·) :=
    hle'.sublist (List.dedup_sublist _)
  have hn : (sortDedupZ l).Nodup := List.nodup_dedup _
  exact (hp.and hn).imp fun h => lt_of_le_of_ne h.1 h.2

theorem zip_tail_mem {l : List ℤ} {p : ℤ × ℤ} (hp : p ∈ l.zip l.tail) :
    p.1 ∈ l ∧ p.2 ∈ l := by
  rcases p with ⟨a, b⟩
  obtain ⟨h1, h2⟩ := List.of_mem_zip hp
  exact ⟨h1, List.mem_of_mem_tail h2⟩

theorem zip_tail_chain {l : List ℤ} (hl : l.Pairwise (· < ·)) :
    ∀ p ∈ l.zip l.tail, p.1 < p.2 := by
  induction l with
  | nil => simp
  | cons a rest ih =>
    cases rest with
    | nil => simp
    | cons b rest2 =>
      intro p hp
      simp only [List.tail_cons, List.zip_cons_cons, List.mem_cons] at hp
      rcases hp with rfl | hp'
      · exact (List.pairwise_cons.mp hl).1 b (List.mem_cons_self b rest2)
      · exact ih (List.pairwise_cons.mp hl).2 p hp'

theorem map_fst_zip_tail_pairwise {l : List ℤ} (hl : l.Pairwise (· < ·)) :
    ((l.zip l.tail).map Prod.fst).Pairwise (· < ·) := by
  induction l with
  | nil => simp
  | cons a rest ih =>
    cases rest with
    | nil => simp
    | cons b rest2 =>
      simp only [List.tail_cons, List.zip_cons_cons, List.map_cons]
      refine List.pairwise_cons.mpr ⟨?_, ih (List.pairwise_cons.mp hl).2⟩
      intro v hv
      obtain ⟨p, hp, rfl⟩ := List.mem_map.mp hv
      have h1 : p.1 ∈ b :: rest2 := (zip_tail_mem hp).1
      exact (List.pairwise_cons.mp hl).1 p.1 h1

theorem emitPairs_box (cX cY y1 y2 : ℤ) :
    ∀ (pairs : List (ℤ × ℤ)) (c : Cand), c ∈ emitPairs cX cY y1 y2 pairs →
      ∃ p ∈ pairs, c = candOf cX cY p.1 y1 p.2 y2 ∧
        extractOK (p.2 - p.1) (y2 - y1) = true := by
  intro pairs
  induction pairs with
  | nil => simp [emitPairs]
  | cons p rest ih =>
    intro c hc
    rcases p with ⟨x1, x2⟩
    rw [emitPairs] at hc
    split at hc
    next hok =>
      rcases List.mem_cons.mp hc with rfl | hc'
      · exact ⟨(x1, x2), List.mem_cons_self _ _, rfl, hok⟩
      · obtain ⟨q, hq, rfl, hq2⟩ := ih c hc'
        exact ⟨q, List.mem_cons_of_mem _ hq, rfl, hq2⟩
    next => exact absurd hc (List.not_mem_nil c)

theorem emitPairs_x_sorted (cX cY y1 y2 : ℤ) :
    ∀ pairs : List (ℤ × ℤ), (pairs.map Prod.fst).Pairwise (· < ·) →
      ((emitPairs cX cY y1 y2 pairs).map fun c => c.box.x).Pairwise (· < ·) := by
  intro pairs
  induction pairs with
  | nil => intro _; simp [emitPairs]
  | cons p rest ih =>
    intro hp
    rcases p with ⟨x1, x2⟩
    simp only [List.map_cons] at hp
    rcases List.pairwise_cons.mp hp with ⟨hhead, htail⟩
    rw [emitPairs]
    split
    · simp only [List.map_cons]
      refine List.pairwise_cons.mpr ⟨?_, ih htail⟩
      intro v hv
      obtain ⟨c, hc, rfl⟩ := List.mem_map.mp hv
      obtain ⟨q, hq, rfl, hqok⟩ := emitPairs_box cX cY y1 y2 rest c hc
      show (candOf cX cY x1 y1 x2 y2).box.x < (candOf cX cY q.1 y1 q.2 y2).box.x
      have hlt : x1 < q.1 := hhead q.1 (List.mem_map.mpr ⟨q, hq, rfl⟩)
      show x1 + cX < q.1 + cX
      omega
    · simp

theorem emitBoxesS_box (y1 y2 : ℤ) :
    ∀ (pairs : List (ℤ × ℤ)) (b : Box), b ∈ emitBoxesS y1 y2 pairs →
      ∃ p ∈ pairs, b = Box.mk p.1 y1 (p.2 - p.1) (y2 - y1) := by
  intro pairs
  induction pairs with
  | nil => simp [emitBoxesS]
  | cons p rest ih =>
    intro b hb
    rcases p with ⟨x1, x2⟩
    rw [emitBoxesS] at hb
    split at hb
    · rcases List.mem_cons.mp hb with rfl | hb'
      · exact ⟨(x1, x2), List.mem_cons_self _ _, rfl⟩
      · obtain ⟨q, hq, rfl⟩ := ih b hb'
        exact ⟨q, List.mem_cons_of_mem _ hq, rfl⟩
    · exact absurd hb (List.not_mem_nil b)

theorem emitBoxesS_x_sorted (y1 y2 : ℤ) :
    ∀ pairs : List (ℤ × ℤ), (pairs.map Prod.fst).Pairwise (· > ·) →
      ((emitBoxesS y1 y2 pairs).map Box.x).Pairwise (· > ·) := by
  intro pairs
  induction pairs with
  | nil => intro _; simp [emitBoxesS]
  | cons p rest ih =>
    intro hp
    rcases p with ⟨x1, x2⟩
    simp only [List.map_cons] at hp
    rcases List.pairwise_cons.mp hp with ⟨hhead, htail⟩
    rw [emitBoxesS]
    split
    · simp only [List.map_cons]
      refine List.pairwise_cons.mpr ⟨?_, ih htail⟩
      intro v hv
      obtain ⟨b, hb, rfl⟩ := List.mem_map.mp hv
      obtain ⟨q, hq, rfl⟩ := emitBoxesS_box y1 y2 rest b hb
      show (Box.mk q.1 y1 (q.2 - q.1) (y2 - y1)).x < (Box.mk x1 y1 (x2 - x1) (y2 - y1)).x
      exact hhead q.1 (List.mem_map.mpr ⟨q, hq, rfl⟩)
    · simp

theorem bandCands_x_sorted (cw cX cY : ℤ) (vlines : List Seg) (y1 y2 : ℤ) :
    ((bandCands cw cX cY vlines y1 y2).map fun c => c.box.x).Pairwise (· < ·) := by
  rcases hvc : verticalcuts y1 y2 vlines with _ | cuts
  · simp only [bandCands, hvc]
    split
    · simp
    · simp
  · simp only [bandCands, hvc]
    exact emitPairs_x_sorted cX cY y1 y2 _
      (map_fst_zip_tail_pairwise (sortDedupZ_sorted _))

theorem bandBoxesS_x_sorted (cw : ℤ) (vlines : List Seg) (y1 y2 : ℤ) :
    ((bandBoxesS cw vlines y1 y2).map Box.x).Pairwise (· > ·) := by
  rcases hvc : verticalcuts y1 y2 vlines with _ | cuts
  · simp only [bandBoxesS, hvc]
    split
    · simp
    · simp
  · simp only [bandBoxesS, hvc]
    apply emitBoxesS_x_sorted y1 y2
    rw [List.map_reverse, List.pairwise_reverse]
    exact map_fst_zip_tail_pairwise (sortDedupZ_sorted _)

theorem candLe_total (a b : Cand) : candLe a b = true ∨ candLe b a = true := by
  unfold candLe
  simp only [decide_eq_true_eq]
  rcases lt_trichotomy a.cy b.cy with h | h | h
  · exact Or.inl (Or.inl h)
  · rcases le_total b.cx a.cx with h2 | h2
    · exact Or.inl (Or.inr ⟨h, h2⟩)
    · exact Or.inr (Or.inr ⟨h.symm, h2⟩)
  · exact Or.inr (Or.inl h)

theorem candLe_trans (a b c : Cand) (h1 : candLe a b = true)
    (h2 : candLe b c = true) : candLe a c = true := by
  unfold candLe at h1 h2 ⊢
  simp only [decide_eq_true_eq] at h1 h2 ⊢
  rcases h1 with h1 | ⟨h1e, h1x⟩ <;> rcases h2 with h2 | ⟨h2e, h2x⟩
  · exact Or.inl (lt_trans h1 h2)
  · exact Or.inl (h2e ▸ h1)
  · exact Or.inl (h1e ▸ h2)
  · exact Or.inr ⟨h1e.trans h2e, le_trans h2x h1x⟩

theorem lineAssemble_panels_get (wd ht : ℕ) (cands : List Cand) (k : ℕ)
    (hk : k < (lineAssemble wd ht cands).panels.length) :
    ((lineAssemble wd ht cands).panels.get ⟨k, hk⟩).id = k ∧
      ((lineAssemble wd ht cands).panels.get ⟨k, hk⟩).orderIdx = k := by
  have hk' := hk
  simp only [lineAssemble, assembleEnvelope, List.length_map, List.length_zip,
    List.length_range, min_self] at hk'
  rw [List.get_eq_getElem]
  simp only [lineAssemble, assembleEnvelope]
  rw [List.getElem_map, List.getElem_zip, List.getElem_range]
  exact ⟨rfl, rfl⟩

/-- C7 counterexample: on a band of width 100 with a single full-span
vertical cut at column 50, the netlify grid enumeration emits the left column
(x = 0) before the right column (x = 50) — ascending x, not right to left. -/
theorem band_emission_left_to_right :
    ((bandCands 100 0 0 [((50, 0), (50, 99))] 0 99).map fun c => c.box.x)
        = [0, 50] ∧
      ¬ ((bandCands 100 0 0 [((50, 0), (50, 99))] 0 99).map
          fun c => c.box.x).Pairwise (· > ·) := by
  decide

/-- C7 amended: the netlify grid enumeration emits the column panels of each
row band left to right (ascending x) while the src variant emits them right
to left (descending x); the full netlify candidate set collected across all
bands is then globally stable-sorted by center-y ascending with center-x
descending as tie-break, and sequential ids and reading-order indices are
assigned only after that sort. -/
theorem grid_enumeration_order (cw cropX cropY : ℤ) (vlines : List Seg)
    (y1 y2 : ℤ) (wd ht : ℕ) (cands : List Cand) :
    ((bandCands cw cropX cropY vlines y1 y2).map fun c => c.box.x).Pairwise (· < ·) ∧
    ((bandBoxesS cw vlines y1 y2).map Box.x).Pairwise (· > ·) ∧
    (stableSort candLe cands).Pairwise (fun a b => candLe a b = true) ∧
    lineAssemble wd ht cands =
      assembleEnvelope wd ht ((stableSort candLe cands).map Cand.box) ∧
    ∀ k (hk : k < (lineAssemble wd ht cands).panels.length),
      ((lineAssemble wd ht cands).panels.get ⟨k, hk⟩).id = k ∧
      ((lineAssemble wd ht cands).panels.get ⟨k, hk⟩).orderIdx = k :=
  ⟨bandCands_x_sorted cw cropX cropY vlines y1 y2,
    bandBoxesS_x_sorted cw vlines y1 y2,
    pairwise_stableSort candLe_total candLe_trans cands,
    rfl,
    lineAssemble_panels_get wd ht cands⟩

/-!
## Containment (C3): membership lemmas for the contour detector
-/

theorem greedyKeep_subset (pending : List Box) :
    ∀ (acc : List Box) (x : Box), x ∈ greedyKeep acc pending →
      x ∈ acc ∨ x ∈ pending := by
  induction pending with
  | nil =>
    intro acc x hx
    exact Or.inl (by simpa [greedyKeep] using hx)
  | cons b rest ih =>
    intro acc x hx
    rw [greedyKeep] at hx
    split at hx
    · rcases ih _ x hx with h | h
      · rcases List.mem_append.mp h with h' | h'
        · exact Or.inl h'
        · rcases List.mem_singleton.mp h' with rfl
          exact Or.inr (List.mem_cons_self _ _)
      · exact Or.inr (List.mem_cons_of_mem b h)
    · rcases ih _ x hx with h | h
      · exact Or.inl h
      · exact Or.inr (List.mem_cons_of_mem b h)

theorem resolve_overlaps_subset (l : List Box) :
    ∀ b ∈ resolve_overlaps l, b ∈ l := by
  intro b hb
  rcases greedyKeep_subset _ _ _ hb with h | h
  · exact absurd h (List.not_mem_nil b)
  · exact (mem_stableSort _ _ _).mp h

theorem method1_mem (cw ch : ℕ) (cs : List Contour) :
    ∀ b ∈ method1 cw ch cs, ∃ c ∈ cs, b = c.box ∧ sizeAspectOK c = true := by
  intro b hb
  obtain ⟨c, hc, hfc⟩ := List.mem_filterMap.mp hb
  by_cases h : (areaWindowOK cw ch c && sizeAspectOK c && nearEdgeOrLarge cw ch c)
      = true
  · rw [if_pos h] at hfc
    injection hfc with h2
    refine ⟨c, hc, h2.symm, ?_⟩
    simp only [Bool.and_eq_true] at h
    exact h.1.2
  · rw [if_neg h] at hfc
    exact Option.noConfusion hfc

theorem method2Step_mem (cw ch : ℕ) :
    ∀ (cs : List Contour) (bs : List Box) (b : Box),
      b ∈ method2Step cw ch bs cs →
      b ∈ bs ∨ ∃ c ∈ cs, b = c.box ∧ sizeAspectOK c = true := by
  intro cs
  induction cs with
  | nil => intro bs b hb; exact Or.inl (by simpa [method2Step] using hb)
  | cons c rest ih =>
    intro bs b hb
    rw [method2Step, List.foldl_cons] at hb
    have hb' : b ∈ method2Step cw ch
        (if areaWindowOK cw ch c && sizeAspectOK c && !overlapsHalf bs c.box
          then bs ++ [c.box] else bs) rest := hb
    rcases ih _ b hb' with h | h
    · split at h
      case isTrue hcond =>
        rcases List.mem_append.mp h with h' | h'
        · exact Or.inl h'
        · rcases List.mem_singleton.mp h' with rfl
          refine Or.inr ⟨c, List.mem_cons_self _ _, rfl, ?_⟩
          simp only [Bool.and_eq_true] at hcond
          exact hcond.1.2
      case isFalse _ => exact Or.inl h
    · obtain ⟨c', hc', hh⟩ := h
      exact Or.inr ⟨c', List.mem_cons_of_mem c hc', hh⟩

theorem method2_mem (cw ch : ℕ) :
    ∀ (ls : List (List Contour)) (bs : List Box) (b : Box),
      b ∈ method2 cw ch bs ls →
      b ∈ bs ∨ ∃ cs ∈ ls, ∃ c ∈ cs, b = c.box ∧ sizeAspectOK c = true := by
  intro ls
  induction ls with
  | nil => intro bs b hb; exact Or.inl (by simpa [method2] using hb)
  | cons cs rest ih =>
    intro bs b hb
    simp only [method2] at hb
    split at hb
    · rcases method2Step_mem cw ch cs bs b hb with h | h
      · exact Or.inl h
      · obtain ⟨c, hc, hh⟩ := h
        exact Or.inr ⟨cs, List.mem_cons_self _ _, c, hc, hh⟩
    · rcases ih _ b hb with h | h
      · rcases method2Step_mem cw ch cs bs b h with h2 | h2
        · exact Or.inl h2
        · obtain ⟨c, hc, hh⟩ := h2
          exact Or.inr ⟨cs, List.mem_cons_self _ _, c, hc, hh⟩
      · obtain ⟨cs', hcs', rest'⟩ := h
        exact Or.inr ⟨cs', List.mem_cons_of_mem cs hcs', rest'⟩

theorem detect_mem (cw ch : ℕ) (ec : List Contour) (ac : List (List Contour)) :
    ∀ b ∈ detect_panels_contour_based cw ch ec ac,
      ∃ c, (c ∈ ec ∨ ∃ cs ∈ ac, c ∈ cs) ∧ b = c.box ∧ sizeAspectOK c = true := by
  intro b hb
  rw [detect_panels_contour_based] at hb
  have hb2 := resolve_overlaps_subset _ b hb
  split at hb2
  · rcases method2_mem cw ch ac (method1 cw ch ec) b hb2 with h | h
    · obtain ⟨c, hc, hh⟩ := method1_mem cw ch ec b h
      exact ⟨c, Or.inl hc, hh⟩
    · obtain ⟨cs, hcs, c, hc, hh⟩ := h
      exact ⟨c, Or.inr ⟨cs, hcs, hc⟩, hh⟩
  · obtain ⟨c, hc, hh⟩ := method1_mem cw ch ec b hb2
    exact ⟨c, Or.inl hc, hh⟩

theorem sizeAspectOK_pos {c : Contour} (h : sizeAspectOK c = true) :
    100 < c.box.w ∧ 100 < c.box.h := by
  simp only [sizeAspectOK, Bool.and_eq_true, decide_eq_true_eq] at h
  exact ⟨h.1.1.1, h.1.1.2⟩

/-!
## Containment (C3): bounds for the line-based grid
-/

theorem sweepSnap_mem (thr : ℤ) :
    ∀ (l : List ℤ) (c x : ℤ), x ∈ sweepSnap thr c l → x = c ∨ x ∈ l := by
  intro l
  induction l with
  | nil => intro c x hx; simp [sweepSnap] at hx
  | cons v vs ih =>
    intro c x hx
    rw [sweepSnap] at hx
    split at hx
    · rcases List.mem_cons.mp hx with rfl | hx'
      · exact Or.inl rfl
      · rcases ih c x hx' with h | h
        · exact Or.inl h
        · exact Or.inr (List.mem_cons_of_mem v h)
    · rcases List.mem_cons.mp hx with rfl | hx'
      · exact Or.inr (List.mem_cons_self _ _)
      · rcases ih v x hx' with h | h
        · exact Or.inr (h ▸ List.mem_cons_self v vs)
        · exact Or.inr (List.mem_cons_of_mem v h)

theorem new_parallel_merge_mem (l : List ℤ) (thr : ℤ) :
    ∀ x ∈ new_parallel_merge l thr, x = 0 ∨ x ∈ l := by
  intro x hx
  rw [new_parallel_merge, mem_sortDedupZ] at hx
  rcases sweepSnap_mem thr _ 0 x hx with h | h
  · exact Or.inl h
  · exact Or.inr ((mem_sortDedupZ l x).mp h)

theorem horizontalPositions_bounds (p : LineParams) (ch : ℤ) (cuts : List Seg) :
    ∀ v ∈ horizontalPositions p ch cuts,
      p.heightBorder < v ∧ v < ch - p.heightBorder := by
  intro v hv
  obtain ⟨l, _, hfl⟩ := List.mem_filterMap.mp hv
  by_cases h1 : protractorLt45 l = true
  · rw [if_pos h1] at hfl
    by_cases h2 : p.heightBorder < l.1.2 ∧ l.1.2 < ch - p.heightBorder
    · rw [if_pos h2] at hfl
      injection hfl with h3
      exact h3 ▸ h2
    · rw [if_neg h2] at hfl
      exact Option.noConfusion hfl
  · rw [if_neg h1] at hfl
    exact Option.noConfusion hfl

theorem verticalPositions_bounds (p : LineParams) (cw : ℤ) (cuts : List Seg) :
    ∀ v ∈ verticalPositions p cw cuts,
      p.widthBorder < v.1 ∧ v.1 < cw - p.widthBorder := by
  intro v hv
  obtain ⟨l, _, hfl⟩ := List.mem_filterMap.mp hv
  by_cases h1 : protractorLt45 l = true
  · rw [if_pos h1] at hfl
    exact Option.noConfusion hfl
  · rw [if_neg h1] at hfl
    by_cases h2 : p.widthBorder < l.1.1 ∧ l.1.1 < cw - p.widthBorder
    · rw [if_pos h2] at hfl
      injection hfl with h3
      rw [← h3]
      exact h2
    · rw [if_neg h2] at hfl
      exact Option.noConfusion hfl

theorem adjustStepUp_fst (v1 : ℤ × ℤ × ℤ) (ab : ℤ × ℤ) :
    (adjustStepUp v1 ab).1 = v1.1 := by
  rw [adjustStepUp]
  split <;> rfl

theorem adjustStep_fst (v : ℤ × ℤ × ℤ) (ab : ℤ × ℤ) :
    (adjustStep v ab).1 = v.1 := by
  rw [adjustStep, adjustStepUp_fst]
  split <;> rfl

theorem adjustVPos_fst (hs : List ℤ) (v : ℤ × ℤ × ℤ) :
    (adjustVPos hs v).1 = v.1 := by
  rw [adjustVPos]
  generalize hs.zip hs.tail = zs
  induction zs generalizing v with
  | nil => rfl
  | cons ab rest ih =>
    rw [List.foldl_cons, ih, adjustStep_fst]

theorem mergeVColsGo_cols (dst : ℤ) :
    ∀ (l : List (ℤ × ℤ × ℤ)) (anchor : ℤ) (v : ℤ × ℤ × ℤ),
      v ∈ mergeVColsGo dst anchor l → v.1 = anchor ∨ ∃ u ∈ l, v.1 = u.1 := by
  intro l
  induction l with
  | nil => intro anchor v hv; simp [mergeVColsGo] at hv
  | cons u us ih =>
    intro anchor v hv
    rw [mergeVColsGo] at hv
    split at hv
    · rcases List.mem_cons.mp hv with rfl | hv'
      · exact Or.inl rfl
      · rcases ih anchor v hv' with h | h
        · exact Or.inl h
        · obtain ⟨u', hu', h⟩ := h
          exact Or.inr ⟨u', List.mem_cons_of_mem u hu', h⟩
    · rcases List.mem_cons.mp hv with rfl | hv'
      · exact Or.inr ⟨v, List.mem_cons_self _ _, rfl⟩
      · rcases ih u.1 v hv' with h | h
        · exact Or.inr ⟨u, List.mem_cons_self u us, h⟩
        · obtain ⟨u', hu', h⟩ := h
          exact Or.inr ⟨u', List.mem_cons_of_mem u hu', h⟩

theorem mergeVCols_cols (dst : ℤ) (l : List (ℤ × ℤ × ℤ)) :
    ∀ v ∈ mergeVCols dst l, ∃ u ∈ l, v.1 = u.1 := by
  intro v hv
  cases l with
  | nil => simp [mergeVCols] at hv
  | cons u us =>
    simp only [mergeVCols] at hv
    rcases mergeVColsGo_cols dst (u :: us) u.1 v hv with h | h
    · exact ⟨u, List.mem_cons_self u us, h⟩
    · exact h

theorem gridHs_bounds (anglePass : Seg → Bool) (p : LineParams)
    (ch distance : ℤ) (lines : List Seg) (hch : 1 ≤ ch)
    (hhb : 0 ≤ p.heightBorder) :
    ∀ v ∈ sortDedupZ (gridHsAdj anglePass p ch distance lines),
      0 ≤ v ∧ v ≤ ch - 1 := by
  intro v hv
  rw [mem_sortDedupZ, gridHsAdj] at hv
  rcases List.mem_cons.mp hv with rfl | hv'
  · omega
  rcases List.mem_append.mp hv' with h | h
  · rcases new_parallel_merge_mem _ _ v h with h0 | hmem
    · omega
    · have hb := horizontalPositions_bounds p ch _ v hmem
      omega
  · rcases List.mem_cons.mp h with rfl | h2
    · omega
    · rcases List.mem_singleton.mp h2 with rfl
      omega

theorem gridVLines_cols (anglePass : Seg → Bool) (p : LineParams)
    (cw ch distance : ℤ) (lines : List Seg) (hwb : 0 ≤ p.widthBorder) :
    ∀ l ∈ gridVLines anglePass p cw ch distance lines,
      0 ≤ l.1.1 ∧ l.1.1 ≤ cw - 1 := by
  intro l hl
  rw [gridVLines] at hl
  obtain ⟨v, hv, rfl⟩ := List.mem_map.mp hl
  obtain ⟨u, hu, hcol⟩ := mergeVCols_cols _ _ v hv
  rw [mem_stableSort] at hu
  obtain ⟨u', hu', rfl⟩ := List.mem_map.mp hu
  have hfst := adjustVPos_fst (gridHsAdj anglePass p ch distance lines) u'
  have hb := verticalPositions_bounds p cw _ u' hu'
  show 0 ≤ v.1 ∧ v.1 ≤ cw - 1
  rw [hcol, hfst]
  omega

theorem dedupFirstGo_subset :
    ∀ (l seen : List ℤ) (x : ℤ), x ∈ dedupFirstGo seen l → x ∈ l := by
  intro l
  induction l with
  | nil => intro seen x hx; simp [dedupFirstGo] at hx
  | cons a as ih =>
    intro seen x hx
    rw [dedupFirstGo] at hx
    split at hx
    · exact List.mem_cons_of_mem a (ih _ x hx)
    · rcases List.mem_cons.mp hx with rfl | hx'
      · exact List.mem_cons_self _ _
      · exact List.mem_cons_of_mem a (ih _ x hx')

theorem verticalcuts_mem (lb ub : ℤ) (vlist : List Seg) (cuts : List ℤ)
    (h : verticalcuts lb ub vlist = some cuts) :
    ∀ x ∈ cuts, ∃ l ∈ vlist, x = l.1.1 := by
  intro x hx
  simp only [verticalcuts] at h
  split at h
  · exact Option.noConfusion h
  · injection h with h2
    rw [← h2, dedupFirst] at hx
    have hx2 := dedupFirstGo_subset _ [] x hx
    obtain ⟨l, hl, hfl⟩ := List.mem_filterMap.mp hx2
    by_cases hcond : l.1.2 ≤ lb ∧ ub ≤ l.2.2
    · rw [if_pos hcond] at hfl
      injection hfl with h3
      exact ⟨l, hl, h3.symm⟩
    · rw [if_neg hcond] at hfl
      exact Option.noConfusion hfl

theorem extractOK_pos {w h : ℤ} (hx : extractOK w h = true) : 0 < w ∧ 0 < h := by
  simpa [extractOK] using hx

theorem bandCands_bounds (cw cX cY : ℤ) (vlines : List Seg) (y1 y2 : ℤ)
    (hcw : 1 ≤ cw) (hy1 : 0 ≤ y1)
    (hcols : ∀ l ∈ vlines, 0 ≤ l.1.1 ∧ l.1.1 ≤ cw - 1) :
    ∀ c ∈ bandCands cw cX cY vlines y1 y2,
      cX ≤ c.box.x ∧ cY ≤ c.box.y ∧ 0 < c.box.w ∧ 0 < c.box.h ∧
        c.box.x + c.box.w ≤ cX + cw - 1 ∧ c.box.y + c.box.h = cY + y2 := by
  intro c hc
  rcases hvc : verticalcuts y1 y2 vlines with _ | cuts
  · simp only [bandCands, hvc] at hc
    split at hc
    next hok =>
      rcases List.mem_singleton.mp hc with rfl
      obtain ⟨hw0, hh0⟩ := extractOK_pos hok
      simp only [candOf]
      omega
    next => exact absurd hc (List.not_mem_nil c)
  · simp only [bandCands, hvc] at hc
    obtain ⟨q, hq, rfl, hok⟩ := emitPairs_box cX cY y1 y2 _ c hc
    have hcps : ∀ z ∈ sortDedupZ (0 :: (cuts ++ [cw - 1])), 0 ≤ z ∧ z ≤ cw - 1 := by
      intro z hz
      rw [mem_sortDedupZ] at hz
      rcases List.mem_cons.mp hz with rfl | hz'
      · omega
      rcases List.mem_append.mp hz' with h | h
      · obtain ⟨l, hl, rfl⟩ := verticalcuts_mem y1 y2 vlines cuts hvc z h
        exact hcols l hl
      · rcases List.mem_singleton.mp h with rfl
        omega
    obtain ⟨hq1, hq2⟩ := zip_tail_mem hq
    have hb1 := hcps q.1 hq1
    have hb2 := hcps q.2 hq2
    obtain ⟨hw0, hh0⟩ := extractOK_pos hok
    simp only [candOf]
    omega

theorem foldl_append_mem {α β : Type} (f : β → List α) :
    ∀ (ps : List β) (acc : List α) (c : α),
      c ∈ ps.foldl (fun acc p => acc ++ f p) acc →
      c ∈ acc ∨ ∃ p ∈ ps, c ∈ f p := by
  intro ps
  induction ps with
  | nil => intro acc c hc; exact Or.inl (by simpa using hc)
  | cons p rest ih =>
    intro acc c hc
    rw [List.foldl_cons] at hc
    rcases ih _ c hc with h | h
    · rcases List.mem_append.mp h with h' | h'
      · exact Or.inl h'
      · exact Or.inr ⟨p, List.mem_cons_self _ _, h'⟩
    · obtain ⟨q, hq, h⟩ := h
      exact Or.inr ⟨q, List.mem_cons_of_mem p hq, h⟩

theorem lineCandidates_bounds (anglePass : Seg → Bool) (p : LineParams)
    (cw ch cropX cropY distance : ℤ) (lines : List Seg)
    (hcw : 1 ≤ cw) (hch : 1 ≤ ch) (hx : 0 ≤ cropX) (hy : 0 ≤ cropY)
    (hwb : 0 ≤ p.widthBorder) (hhb : 0 ≤ p.heightBorder) :
    ∀ c ∈ lineCandidates anglePass p cw ch cropX cropY distance lines,
      0 ≤ c.box.x ∧ 0 ≤ c.box.y ∧ 0 < c.box.w ∧ 0 < c.box.h ∧
        c.box.x + c.box.w ≤ cropX + cw - 1 ∧
        c.box.y + c.box.h ≤ cropY + ch - 1 := by
  intro c hc
  rw [lineCandidates] at hc
  rcases foldl_append_mem _ _ _ c hc with h | h
  · exact absurd h (List.not_mem_nil c)
  obtain ⟨yy, hyy, hcband⟩ := h
  have hy2 : yy.2 ≤ ch - 1 := by
    have := (gridHs_bounds anglePass p ch distance lines hch hhb yy.2
      (zip_tail_mem hyy).2)
    exact this.2
  have hy1 : 0 ≤ yy.1 :=
    (gridHs_bounds anglePass p ch distance lines hch hhb yy.1
      (zip_tail_mem hyy).1).1
  have hcols : ∀ l ∈ (gridOf anglePass p cw ch distance lines).2,
      0 ≤ l.1.1 ∧ l.1.1 ≤ cw - 1 :=
    gridVLines_cols anglePass p cw ch distance lines hwb
  obtain ⟨k1, k2, k3, k4, k5, k6⟩ :=
    bandCands_bounds cw cropX cropY _ yy.1 yy.2 hcw hy1 hcols c hcband
  refine ⟨by omega, by omega, k3, k4, k5, by omega⟩

theorem netlifyParams_border_nonneg (cw ch : ℕ) :
    0 ≤ (netlifyParams cw ch).widthBorder ∧
      0 ≤ (netlifyParams cw ch).heightBorder := by
  constructor
  · show (0 : ℤ) ≤ (5 * (cw : ℤ)) / 100
    positivity
  · show (0 : ℤ) ≤ (5 * (ch : ℤ)) / 100
    positivity

/-- The collaborator contract for a contour supplied by OpenCV: its bounding
rectangle lies within the (cropped) image it was extracted from. -/
def contourInBounds (crop : CropInfo) (c : Contour) : Prop :=
  0 ≤ c.box.x ∧ 0 ≤ c.box.y ∧ c.box.x + c.box.w ≤ (crop.w : ℤ) ∧
    c.box.y + c.box.h ≤ (crop.h : ℤ)

/-- C3: for every input on which segmentation succeeds (no error field),
every reported panel bounding box lies within the original image and has
strictly positive width and height — on the contour path, the line-based
fallback path, and the whole-image fallback alike.  Hypotheses: the decoded
image has positive dimensions (PIL decode contract) and every supplied
contour bounding box lies within the cropped image (`cv2.boundingRect`
contract). -/
theorem panel_boxes_within_image (anglePass : Seg → Bool) (img : Img)
    (ec : List Contour) (ac : List (List Contour)) (hl : List Seg)
    (hw : 0 < img.width) (hh : 0 < img.height)
    (hec : ∀ c ∈ ec, contourInBounds (remove_black_borders img) c)
    (hac : ∀ cs ∈ ac, ∀ c ∈ cs, contourInBounds (remove_black_borders img) c) :
    (segment_manga_panels anglePass (.ok img) ec ac hl).error = none →
    ∀ pn ∈ (segment_manga_panels anglePass (.ok img) ec ac hl).panels,
      0 ≤ pn.box.x ∧ 0 ≤ pn.box.y ∧ 0 < pn.box.w ∧ 0 < pn.box.h ∧
        pn.box.x + pn.box.w ≤ (img.width : ℤ) ∧
        pn.box.y + pn.box.h ≤ (img.height : ℤ) := by
  intro herr pn hpn
  have hcropb := remove_black_borders_bounds img
  have hcropp := remove_black_borders_pos img hw hh
  set crop := remove_black_borders img with hcropdef
  have hxw : (crop.x : ℤ) + (crop.w : ℤ) ≤ (img.width : ℤ) := by
    exact_mod_cast hcropb.2.2.1
  have hyh : (crop.y : ℤ) + (crop.h : ℤ) ≤ (img.height : ℤ) := by
    exact_mod_cast hcropb.2.2.2.1
  have hcx0 : (0 : ℤ) ≤ (crop.x : ℤ) := Int.natCast_nonneg _
  have hcy0 : (0 : ℤ) ≤ (crop.y : ℤ) := Int.natCast_nonneg _
  have hcw1 : (1 : ℤ) ≤ (crop.w : ℤ) := by exact_mod_cast hcropp.1
  have hch1 : (1 : ℤ) ≤ (crop.h : ℤ) := by exact_mod_cast hcropp.2
  rw [segment_manga_panels] at herr hpn
  match hcore : segmentCore anglePass (.ok img) ec ac hl with
  | .error e =>
    rw [hcore] at herr
    exact Option.noConfusion herr
  | .ok env =>
    rw [hcore] at hpn
    simp only at hpn
    unfold segmentCore at hcore
    simp only at hcore
    split at hcore
    · -- contour branch
      unfold contourAssemble at hcore
      simp only at hcore
      split at hcore
      · injection hcore with henv
        rw [← henv] at hpn
        have hbm := assembleEnvelope_box_mem _ _ _ pn hpn
        rw [mem_stableSort] at hbm
        obtain ⟨b, hbdet, hshift⟩ := List.mem_map.mp hbm
        obtain ⟨c, hcin, hbeq, hsz⟩ := detect_mem crop.w crop.h ec ac b hbdet
        obtain ⟨h100w, h100h⟩ := sizeAspectOK_pos hsz
        have hcb : contourInBounds crop c := by
          rcases hcin with h | ⟨cs, hcs, hc⟩
          · exact hec c h
          · exact hac cs hcs c hc
        obtain ⟨hbx, hby, hbxw, hbyh⟩ := hcb
        rw [← hshift, hbeq]
        simp only
        rw [← hcropdef]
        omega
      · exact Except.noConfusion hcore
    · split at hcore
      · -- whole-image fallback
        unfold fallbackAssemble at hcore
        split at hcore
        next hext =>
          injection hcore with henv
          rw [← henv] at hpn
          rcases List.mem_singleton.mp hpn with rfl
          obtain ⟨hw0, hh0⟩ := extractOK_pos hext
          simp only
          omega
        next => exact Except.noConfusion hcore
      · -- line branch
        injection hcore with henv
        rw [← henv] at hpn
        have hbm := assembleEnvelope_box_mem _ _ _ pn hpn
        obtain ⟨cand, hcand, hbox⟩ := List.mem_map.mp hbm
        rw [mem_stableSort] at hcand
        obtain ⟨b1, b2, b3, b4, b5, b6⟩ :=
          lineCandidates_bounds anglePass (netlifyParams crop.w crop.h)
            (crop.w : ℤ) (crop.h : ℤ) (crop.x : ℤ) (crop.y : ℤ) 999999999 hl
            hcw1 hch1 hcx0 hcy0 (netlifyParams_border_nonneg _ _).1
            (netlifyParams_border_nonneg _ _).2 cand hcand
        rw [← hbox]
        omega

/-- Witness for `panel_boxes_within_image` at a concrete all-black 2 by 1
image (the whole-image fallback path): its single panel is in bounds. -/
theorem panel_boxes_within_image_witness :
    0 < (Panel.mk 0 (Box.mk 0 0 2 1) 0).box.w ∧
      (Panel.mk 0 (Box.mk 0 0 2 1) 0).box.x +
        (Panel.mk 0 (Box.mk 0 0 2 1) 0).box.w ≤ (2 : ℤ) := by
  have h := panel_boxes_within_image (fun _ => true) ⟨2, 1, fun _ _ => 0⟩
    [] [] [] (by decide) (by decide) (by simp) (by simp) (by decide)
    (Panel.mk 0 (Box.mk 0 0 2 1) 0) (by decide)
  exact ⟨h.2.2.1, h.2.2.2.2.1⟩

end PanelSeg
